import Mathlib

/-!
Verification development for the RepoSentinel job-scanning core.

The definitions below are a shallow embedding of the TypeScript sources:
  - `db.ts`    : SQLite schema and store operations (jobs, job_logs, findings)
  - `worker.ts`: the claim protocol (`claimJob`) and the pipeline (`processJob`)
  - `docker.ts`: the container runtime adapter (`runDocker`)
  - `git.ts`   : repository fetching and `shellEscape`
  - `api.ts`   : request validation and the POST /scan handler
  - `scanners.ts`: tolerant JSON output parsing (`safeJsonParse`)

Conventions: SQL tables are lists of row structures kept in rowid (insertion)
order; `AUTOINCREMENT` columns are modelled by a counter in the store; ISO-8601
timestamps produced by `nowIso()` are kept as strings and compared
lexicographically, exactly as SQLite compares TEXT columns.
-/

set_option maxHeartbeats 1000000
set_option maxRecDepth 100000

namespace RepoSentinel

/-- Job status enum, from db.ts `type JobStatus`. -/
inductive JobStatus
  | queued
  | running
  | succeeded
  | failed
deriving DecidableEq, Repr

/-- One row of the `jobs` table (schema created in db.ts `openDb`).
`created_at` holds the `nowIso()` creation instant; ISO-8601 strings compare
lexicographically in creation order, so the column is modelled by a `Nat`
timestamp with the same ordering. The other timestamp columns are never
compared and stay opaque strings. -/
structure JobRow where
  id : String
  status : JobStatus
  repo_url : String
  ref : Option String
  created_at : Nat
  started_at : Option String := none
  finished_at : Option String := none
  workdir : Option String := none
  error : Option String := none
deriving DecidableEq, Repr

/-- One row of the `job_logs` table; `seq` is the AUTOINCREMENT primary key
used as the polling cursor. -/
structure LogRow where
  seq : Nat
  job_id : String
  ts : String
  level : String
  line : String
deriving DecidableEq, Repr

/-- One row of the `findings` table. The JSON payloads are kept as the
opaque strings produced by `JSON.stringify`. -/
structure FindingRow where
  fid : Nat
  job_id : String
  tool : String
  created_at : String
  summary_json : String
  raw_json : String
deriving DecidableEq, Repr

/-- The SQLite database: each table as a list of rows in rowid (insertion)
order, plus the next value of each AUTOINCREMENT counter. -/
structure Store where
  jobs : List JobRow := []
  logs : List LogRow := []
  findings : List FindingRow := []
  nextLogSeq : Nat := 1
  nextFindingId : Nat := 1
deriving DecidableEq, Repr

/-- db.ts `logLine`: INSERT INTO job_logs(job_id, ts, level, line); the
AUTOINCREMENT column assigns the next sequence id. -/
def logLine (st : Store) (jobId level line now : String) : Store :=
  { st with
    logs := st.logs ++ [⟨st.nextLogSeq, jobId, now, level, line⟩],
    nextLogSeq := st.nextLogSeq + 1 }

/-- db.ts `insertFinding`: INSERT INTO findings(job_id, tool, created_at,
summary_json, raw_json). -/
def insertFinding (st : Store) (jobId tool summary raw now : String) : Store :=
  { st with
    findings := st.findings ++ [⟨st.nextFindingId, jobId, tool, now, summary, raw⟩],
    nextFindingId := st.nextFindingId + 1 }

/-- One dynamically-built column assignment of db.ts `setJobStatus`
(an element pushed onto its `cols`/`vals` arrays). -/
inductive ColAssign
  | statusCol (v : JobStatus)
  | startedAtCol (v : String)
  | finishedAtCol (v : String)
  | errorCol (v : String)
  | workdirCol (v : String)
deriving DecidableEq, Repr

/-- Applying one column assignment to a jobs row. -/
def applyCol (r : JobRow) : ColAssign → JobRow
  | .statusCol v => { r with status := v }
  | .startedAtCol v => { r with started_at := some v }
  | .finishedAtCol v => { r with finished_at := some v }
  | .errorCol v => { r with error := some v }
  | .workdirCol v => { r with workdir := some v }

/-- The optional `fields` argument of db.ts `setJobStatus`; `none` models a
field that is absent (`undefined`). -/
structure SetFields where
  started_at : Option String := none
  finished_at : Option String := none
  error : Option String := none
  workdir : Option String := none
deriving DecidableEq, Repr

/-- The column list built by db.ts `setJobStatus`: `status` always; the
timestamp and workdir columns only when the field is truthy (present and
non-empty, mirroring `if (fields?.started_at)`); the error column whenever the
field is present, the empty string included (`fields?.error !== undefined`). -/
def colsFor (status : JobStatus) (f : SetFields) : List ColAssign :=
  [ColAssign.statusCol status]
    ++ (match f.started_at with
        | some s => if s ≠ "" then [ColAssign.startedAtCol s] else []
        | none => [])
    ++ (match f.finished_at with
        | some s => if s ≠ "" then [ColAssign.finishedAtCol s] else []
        | none => [])
    ++ (match f.error with
        | some e => [ColAssign.errorCol e]
        | none => [])
    ++ (match f.workdir with
        | some s => if s ≠ "" then [ColAssign.workdirCol s] else []
        | none => [])

/-- db.ts `setJobStatus`: UPDATE jobs SET (built columns) WHERE id = ?. -/
def setJobStatus (st : Store) (jobId : String) (status : JobStatus) (f : SetFields) : Store :=
  { st with
    jobs := st.jobs.map fun r =>
      if r.id = jobId then (colsFor status f).foldl applyCol r else r }

/-- worker.ts `claimJob`, inner SELECT:
`SELECT id FROM jobs WHERE status = 'queued' ORDER BY created_at ASC LIMIT 1`.
SQLite serves this from the (status, created_at) index, whose entries with
equal keys are ordered by rowid, so among queued rows sharing the minimal
`created_at` the earliest-inserted row is returned. -/
def selectQueued : List JobRow → Option JobRow
  | [] => none
  | j :: rest =>
    if j.status = JobStatus.queued then
      match selectQueued rest with
      | none => some j
      | some k => if k.created_at < j.created_at then some k else some j
    else selectQueued rest

/-- worker.ts `claimJob`: inside one transaction, select a queued candidate,
run the conditional `UPDATE jobs SET status='running', started_at=? WHERE id=?
AND status='queued'`, require exactly one changed row, and re-select the row. -/
def claimJob (st : Store) (now : String) : Option JobRow × Store :=
  match selectQueued st.jobs with
  | none => (none, st)
  | some row =>
    let changed := st.jobs.countP fun r =>
      decide (r.id = row.id ∧ r.status = JobStatus.queued)
    let jobs' := st.jobs.map fun r =>
      if r.id = row.id ∧ r.status = JobStatus.queued then
        { r with status := JobStatus.running, started_at := some now }
      else r
    let st' := { st with jobs := jobs' }
    if changed = 1 then (jobs'.find? fun r => decide (r.id = row.id), st')
    else (none, st')

/-- Modelled from the spec: "selects the oldest job with status=queued
(tie-break: earliest creation timestamp, then identifier for determinism)".
Among queued rows this picks the one minimal by (created_at, id). -/
def selectQueuedSpec (jobs : List JobRow) : Option JobRow :=
  jobs.foldl
    (fun acc r =>
      if r.status = JobStatus.queued then
        match acc with
        | none => some r
        | some k =>
          if r.created_at < k.created_at ∨
              (r.created_at = k.created_at ∧ r.id.data < k.id.data) then some r
          else some k
      else acc)
    none

/-! Properties of the claim candidate selection. -/

theorem selectQueued_none_iff (l : List JobRow) :
    selectQueued l = none ↔ ∀ r ∈ l, r.status ≠ JobStatus.queued := by
  induction l with
  | nil => simp [selectQueued]
  | cons j rest ih =>
    by_cases hq : j.status = JobStatus.queued
    · constructor
      · intro h
        exfalso
        cases hsel : selectQueued rest with
        | none =>
          simp only [selectQueued, if_pos hq, hsel] at h
          exact Option.noConfusion h
        | some k =>
          simp only [selectQueued, if_pos hq, hsel] at h
          split at h <;> exact Option.noConfusion h
      · intro h
        exact absurd hq (h j (List.mem_cons_self _ _))
    · simp only [selectQueued, if_neg hq]
      rw [ih]
      constructor
      · intro h r hr
        rcases List.mem_cons.mp hr with rfl | hr'
        · exact hq
        · exact h r hr'
      · intro h r hr
        exact h r (List.mem_cons_of_mem _ hr)

theorem selectQueued_mem (l : List JobRow) :
    ∀ r, selectQueued l = some r → r ∈ l ∧ r.status = JobStatus.queued := by
  induction l with
  | nil => exact fun r h => Option.noConfusion h
  | cons j rest ih =>
    intro r h
    by_cases hq : j.status = JobStatus.queued
    · cases hsel : selectQueued rest with
      | none =>
        simp only [selectQueued, if_pos hq, hsel] at h
        obtain rfl := Option.some.inj h
        exact ⟨List.mem_cons_self _ _, hq⟩
      | some k =>
        simp only [selectQueued, if_pos hq, hsel] at h
        by_cases hlt : k.created_at < j.created_at
        · rw [if_pos hlt] at h
          obtain rfl := Option.some.inj h
          obtain ⟨hmem, hkq⟩ := ih _ hsel
          exact ⟨List.mem_cons_of_mem _ hmem, hkq⟩
        · rw [if_neg hlt] at h
          obtain rfl := Option.some.inj h
          exact ⟨List.mem_cons_self _ _, hq⟩
    · simp only [selectQueued, if_neg hq] at h
      obtain ⟨hmem, hrq⟩ := ih _ h
      exact ⟨List.mem_cons_of_mem _ hmem, hrq⟩

theorem selectQueued_min (l : List JobRow) :
    ∀ r, selectQueued l = some r →
      ∀ q ∈ l, q.status = JobStatus.queued → r.created_at ≤ q.created_at := by
  induction l with
  | nil => exact fun r h => Option.noConfusion h
  | cons j rest ih =>
    intro r h q hmem hqq
    by_cases hq : j.status = JobStatus.queued
    · cases hsel : selectQueued rest with
      | none =>
        simp only [selectQueued, if_pos hq, hsel] at h
        obtain rfl := Option.some.inj h
        rcases List.mem_cons.mp hmem with rfl | hmem'
        · exact le_refl _
        · exact absurd hqq ((selectQueued_none_iff rest).mp hsel q hmem')
      | some k =>
        simp only [selectQueued, if_pos hq, hsel] at h
        by_cases hlt : k.created_at < j.created_at
        · rw [if_pos hlt] at h
          obtain rfl := Option.some.inj h
          rcases List.mem_cons.mp hmem with rfl | hmem'
          · exact le_of_lt hlt
          · exact ih _ hsel q hmem' hqq
        · rw [if_neg hlt] at h
          obtain rfl := Option.some.inj h
          rcases List.mem_cons.mp hmem with rfl | hmem'
          · exact le_refl _
          · exact le_trans (not_lt.mp hlt) (ih _ hsel q hmem' hqq)
    · simp only [selectQueued, if_neg hq] at h
      rcases List.mem_cons.mp hmem with rfl | hmem'
      · exact absurd hqq hq
      · exact ih _ h q hmem' hqq

theorem selectQueued_first (l : List JobRow) :
    ∀ r, selectQueued l = some r →
      l.find? (fun q => decide (q.status = JobStatus.queued ∧ q.created_at ≤ r.created_at)) =
        some r := by
  induction l with
  | nil => exact fun r h => Option.noConfusion h
  | cons j rest ih =>
    intro r h
    by_cases hq : j.status = JobStatus.queued
    · cases hsel : selectQueued rest with
      | none =>
        simp only [selectQueued, if_pos hq, hsel] at h
        obtain rfl := Option.some.inj h
        exact List.find?_cons_of_pos _ (by simp [hq])
      | some k =>
        simp only [selectQueued, if_pos hq, hsel] at h
        by_cases hlt : k.created_at < j.created_at
        · rw [if_pos hlt] at h
          obtain rfl := Option.some.inj h
          rw [List.find?_cons_of_neg _ (by simp [hq, not_le.mpr hlt])]
          exact ih _ hsel
        · rw [if_neg hlt] at h
          obtain rfl := Option.some.inj h
          exact List.find?_cons_of_pos _ (by simp [hq])
    · rw [List.find?_cons_of_neg _ (by simp [hq])]
      simp only [selectQueued, if_neg hq] at h
      exact ih _ h

/-! Rows with a unique id. -/

theorem countP_id_queued {l : List JobRow} {r : JobRow}
    (hnd : (l.map JobRow.id).Nodup) (hr : r ∈ l) (hq : r.status = JobStatus.queued) :
    l.countP (fun q => decide (q.id = r.id ∧ q.status = JobStatus.queued)) = 1 := by
  induction l with
  | nil => cases hr
  | cons j rest ih =>
    rw [List.map_cons, List.nodup_cons] at hnd
    rw [List.countP_cons]
    rcases List.mem_cons.mp hr with rfl | hr'
    · have h0 : rest.countP (fun q => decide (q.id = r.id ∧ q.status = JobStatus.queued)) = 0 :=
        List.countP_eq_zero.mpr fun q hqmem hcontra =>
          hnd.1 ((of_decide_eq_true hcontra).1 ▸ List.mem_map_of_mem JobRow.id hqmem)
      rw [h0]
      simp [hq]
    · have hne : ¬j.id = r.id := by
        intro he
        exact hnd.1 (he ▸ List.mem_map_of_mem JobRow.id hr')
      simp only [hne, false_and, decide_False, if_false]
      exact ih hnd.2 hr'

theorem find?_id_unique {l : List JobRow} {r : JobRow}
    (hnd : (l.map JobRow.id).Nodup) (hr : r ∈ l) :
    l.find? (fun q => decide (q.id = r.id)) = some r := by
  induction l with
  | nil => cases hr
  | cons j rest ih =>
    rw [List.map_cons, List.nodup_cons] at hnd
    rcases List.mem_cons.mp hr with rfl | hr'
    · exact List.find?_cons_of_pos _ (by simp)
    · have hne : ¬j.id = r.id := by
        intro he
        exact hnd.1 (he ▸ List.mem_map_of_mem JobRow.id hr')
      rw [List.find?_cons_of_neg _ (by simp [hne])]
      exact ih hnd.2 hr'

theorem find?_id_map {l : List JobRow} (f : JobRow → JobRow)
    (hf : ∀ q, (f q).id = q.id) (p : String) :
    (l.map f).find? (fun q => decide (q.id = p)) =
      (l.find? (fun q => decide (q.id = p))).map f := by
  induction l with
  | nil => rfl
  | cons j rest ih =>
    rw [List.map_cons]
    by_cases h : j.id = p
    · rw [List.find?_cons_of_pos _ (by simp [hf, h]),
        List.find?_cons_of_pos _ (by simp [h])]
      rfl
    · rw [List.find?_cons_of_neg _ (by simp [hf, h]),
        List.find?_cons_of_neg _ (by simp [h])]
      exact ih

/-! Claim C6. -/

/-- Two queued jobs sharing a creation timestamp, the one with the larger
identifier inserted first. -/
def c6Store : Store :=
  { jobs :=
      [ { id := "b", status := JobStatus.queued, repo_url := "u", ref := none,
          created_at := 7 },
        { id := "a", status := JobStatus.queued, repo_url := "u", ref := none,
          created_at := 7 } ] }

/-- Claim C6, counterexample: with two queued jobs sharing `created_at`,
`claimJob` returns the earlier-inserted row (id "b"), while the claimed
tie-break by job identifier would select id "a"; the selection is therefore
not determined by (created_at, id). -/
theorem C6_counterexample :
    ((claimJob c6Store "T2").1.map JobRow.id = some "b") ∧
    ((selectQueuedSpec c6Store.jobs).map JobRow.id = some "a") ∧
    ("b" : String) ≠ "a" := by
  refine ⟨by decide, by decide, by decide⟩

/-- Claim C6 (amended): for a store whose job ids are unique, `claimJob`
selects the queued row with minimal `created_at`, breaking ties by insertion
(rowid) order — not by job identifier; the selected row is returned with
status running and `started_at` stamped, and when no queued row exists the
claim returns nothing and leaves the store unchanged. -/
theorem C6_claim_selection_order (st : Store) (now : String)
    (hnd : (st.jobs.map JobRow.id).Nodup) :
    ((∀ q ∈ st.jobs, q.status ≠ JobStatus.queued) → claimJob st now = (none, st)) ∧
    (∀ j, (claimJob st now).1 = some j →
      ∃ r ∈ st.jobs, r.status = JobStatus.queued ∧
        (∀ q ∈ st.jobs, q.status = JobStatus.queued → r.created_at ≤ q.created_at) ∧
        st.jobs.find?
          (fun q => decide (q.status = JobStatus.queued ∧ q.created_at ≤ r.created_at)) =
          some r ∧
        j = { r with status := JobStatus.running, started_at := some now }) := by
  constructor
  · intro h
    have hnone : selectQueued st.jobs = none := (selectQueued_none_iff _).mpr h
    simp [claimJob, hnone]
  · intro j hj
    cases hsel : selectQueued st.jobs with
    | none => simp [claimJob, hsel] at hj
    | some row =>
      obtain ⟨hmem, hq⟩ := selectQueued_mem _ _ hsel
      refine ⟨row, hmem, hq, selectQueued_min _ _ hsel, selectQueued_first _ _ hsel, ?_⟩
      have hcnt := countP_id_queued hnd hmem hq
      have hfind : (st.jobs.map (fun r =>
          if r.id = row.id ∧ r.status = JobStatus.queued then
            { r with status := JobStatus.running, started_at := some now }
          else r)).find? (fun q => decide (q.id = row.id)) =
          some { row with status := JobStatus.running, started_at := some now } := by
        rw [find?_id_map _ (fun q => by split <;> rfl) row.id, find?_id_unique hnd hmem]
        simp [hq]
      have hclaim : (claimJob st now).1 =
          some { row with status := JobStatus.running, started_at := some now } := by
        simp only [claimJob, hsel, hcnt]
        simp [hfind]
      rw [hclaim] at hj
      exact (Option.some.inj hj).symm

/-- Claim C6 witness: the amended theorem applied to the concrete two-job
store, exhibiting the claimed row. -/
theorem C6_claim_selection_order_witness :
    ∃ r ∈ c6Store.jobs, r.status = JobStatus.queued ∧
      (∀ q ∈ c6Store.jobs, q.status = JobStatus.queued → r.created_at ≤ q.created_at) ∧
      c6Store.jobs.find?
        (fun q => decide (q.status = JobStatus.queued ∧ q.created_at ≤ r.created_at)) =
        some r ∧
      ({ id := "b", status := JobStatus.running, repo_url := "u", ref := none,
          created_at := 7, started_at := some "T2" } : JobRow) =
        { r with status := JobStatus.running, started_at := some "T2" } :=
  (C6_claim_selection_order c6Store "T2" (by decide)).2
    { id := "b", status := JobStatus.running, repo_url := "u", ref := none,
      created_at := 7, started_at := some "T2" } (by decide)

/-! The system transition model used for the concurrency claims.

A run of the deployed system interleaves atomic database interactions:
the POST /scan INSERT (api.ts), each worker's `claimJob` transaction, the
`setJobStatus`/`logLine` statements of `processJob` (worker.ts).  A step's
guard records exactly what the surrounding control flow guarantees in a real
run: an INSERT succeeds only for a fresh id (jobs.id is the PRIMARY KEY and
`genId` values are fresh), and `processJob`'s status writes happen only for a
row the worker just claimed — such a row is running and stays running until
that same worker's terminal write, because `claimJob` touches only queued
rows and every other worker owns a different job. -/

/-- Status of the job row with the given id, read through the primary key. -/
def statusOf (st : Store) (id : String) : Option JobStatus :=
  (st.jobs.find? fun r => decide (r.id = id)).map JobRow.status

/-- A system state: the shared SQLite store plus the ghost history of
successful claims (worker id, job id). -/
structure SysState where
  store : Store := {}
  claimed : List (Nat × String) := []
deriving DecidableEq, Repr

/-- One atomic database interaction of a run. -/
inductive Step
  | create (id repoUrl : String) (ref : Option String) (now : Nat) (workdir : String)
  | claim (c : Nat) (now : String)
  | setRunning (id : String) (now : String) (workdir : String)
  | finish (id : String) (ok : Bool) (now : String) (err : String)
  | log (id level line ts : String)
deriving DecidableEq, Repr

/-- Apply one step; `none` when the step's guard fails (such a step cannot
occur at this point of a real run). -/
def applyStep (s : SysState) : Step → Option SysState
  | .create id url ref now wd =>
    if id ∈ s.store.jobs.map JobRow.id then none
    else
      some { s with store := { s.store with
        jobs := s.store.jobs ++
          [{ id := id, status := JobStatus.queued, repo_url := url, ref := ref,
             created_at := now, workdir := some wd }] } }
  | .claim c now =>
    match claimJob s.store now with
    | (some j, st') => some { store := st', claimed := s.claimed ++ [(c, j.id)] }
    | (none, st') => some { s with store := st' }
  | .setRunning id now wd =>
    if statusOf s.store id = some JobStatus.running then
      some { s with store :=
        (setJobStatus s.store id JobStatus.running
          { started_at := some now, workdir := some wd }) }
    else none
  | .finish id ok now err =>
    if statusOf s.store id = some JobStatus.running then
      some { s with store :=
        (setJobStatus s.store id (if ok then JobStatus.succeeded else JobStatus.failed)
          { finished_at := some now, error := some (if ok then "" else err) }) }
    else none
  | .log id level line ts =>
    some { s with store := logLine s.store id level line ts }

/-- Run a list of steps. -/
def runSteps : SysState → List Step → Option SysState
  | s, [] => some s
  | s, stp :: rest =>
    match applyStep s stp with
    | some s' => runSteps s' rest
    | none => none

/-- The list of states visited by a run, the start state included. -/
def traj : SysState → List Step → Option (List SysState)
  | s, [] => some [s]
  | s, stp :: rest =>
    match applyStep s stp with
    | some s' => (traj s' rest).map (s :: ·)
    | none => none

/-! Effect of the store operations on `statusOf`. -/

theorem foldl_applyCol_id (cols : List ColAssign) (r : JobRow) :
    (cols.foldl applyCol r).id = r.id := by
  induction cols generalizing r with
  | nil => rfl
  | cons c rest ih => rw [List.foldl_cons, ih]; cases c <;> rfl

theorem foldl_applyCol_status_of_no_statusCol (cols : List ColAssign) (r : JobRow)
    (h : ∀ v, ColAssign.statusCol v ∉ cols) :
    (cols.foldl applyCol r).status = r.status := by
  induction cols generalizing r with
  | nil => rfl
  | cons c rest ih =>
    rw [List.foldl_cons]
    rw [ih _ fun v hv => h v (List.mem_cons_of_mem _ hv)]
    cases c with
    | statusCol v => exact absurd (List.mem_cons_self _ _) (fun hc => h v hc)
    | startedAtCol v => rfl
    | finishedAtCol v => rfl
    | errorCol v => rfl
    | workdirCol v => rfl

theorem colsFor_status (stat : JobStatus) (f : SetFields) (r : JobRow) :
    ((colsFor stat f).foldl applyCol r).status = stat := by
  have htail : ∀ v, ColAssign.statusCol v ∉
      ((match f.started_at with
        | some s => if s ≠ "" then [ColAssign.startedAtCol s] else []
        | none => [])
      ++ (match f.finished_at with
          | some s => if s ≠ "" then [ColAssign.finishedAtCol s] else []
          | none => [])
      ++ (match f.error with
          | some e => [ColAssign.errorCol e]
          | none => [])
      ++ (match f.workdir with
          | some s => if s ≠ "" then [ColAssign.workdirCol s] else []
          | none => [])) := by
    intro v hv
    simp only [List.mem_append] at hv
    rcases hv with ((hv | hv) | hv) | hv <;> revert hv <;> split <;> (try split) <;> simp
  show ((ColAssign.statusCol stat ::
      (_ ++ _ ++ _ ++ _ : List ColAssign)).foldl applyCol r).status = stat
  rw [List.foldl_cons]
  exact foldl_applyCol_status_of_no_statusCol _ _ htail

/-- Reading a status through an id-preserving row update. -/
theorem statusOf_mapUpdate (st : Store) (g : JobRow → JobRow)
    (hg : ∀ r, (g r).id = r.id) (rest : Store) (id : String)
    (hrest : rest.jobs = st.jobs.map g) :
    statusOf rest id = (st.jobs.find? fun r => decide (r.id = id)).map fun r => (g r).status := by
  unfold statusOf
  rw [hrest]
  have : (st.jobs.map g).find? (fun r => decide (r.id = id)) =
      (st.jobs.find? fun r => decide (r.id = id)).map g := by
    induction st.jobs with
    | nil => rfl
    | cons j restl ih =>
      rw [List.map_cons]
      by_cases h : j.id = id
      · rw [List.find?_cons_of_pos _ (by simp [hg, h]),
          List.find?_cons_of_pos _ (by simp [h])]
        rfl
      · rw [List.find?_cons_of_neg _ (by simp [hg, h]),
          List.find?_cons_of_neg _ (by simp [h])]
        exact ih
  rw [this, Option.map_map]
  rfl

/-- The store returned by `claimJob` is either untouched or the image of the
conditional one-row update. -/
theorem claimJob_snd_cases (st : Store) (now : String) :
    (claimJob st now).2 = st ∨
    ∃ rid, (claimJob st now).2 = { st with jobs := st.jobs.map fun r =>
      if r.id = rid ∧ r.status = JobStatus.queued then
        { r with status := JobStatus.running, started_at := some now }
      else r } := by
  cases hsel : selectQueued st.jobs with
  | none => left; simp [claimJob, hsel]
  | some row =>
    right
    refine ⟨row.id, ?_⟩
    simp only [claimJob, hsel]
    split <;> rfl

/-! Lifecycle order. -/

/-- The forward lifecycle edges of the job state machine:
queued → running → (succeeded | failed). -/
def Follows : JobStatus → JobStatus → Prop := fun a b =>
  (a = JobStatus.queued ∧ b = JobStatus.running) ∨
  (a = JobStatus.running ∧ (b = JobStatus.succeeded ∨ b = JobStatus.failed))

/-- One observed status is legal after the previous observation: unchanged, a
forward edge, or the queued state of a freshly created row. -/
def stepOK : Option JobStatus → JobStatus → Prop
  | none, b => b = JobStatus.queued
  | some a, b => b = a ∨ Follows a b

/-- A status observation sequence is legal from the given current status. -/
def okFrom : Option JobStatus → List JobStatus → Prop
  | _, [] => True
  | cur, x :: rest => stepOK cur x ∧ okFrom (some x) rest

/-- Collapse consecutive repetitions, leaving the sequence of distinct status
values a job takes over time. -/
def dedupConsec : List JobStatus → List JobStatus
  | [] => []
  | [a] => [a]
  | a :: b :: rest =>
    if a = b then dedupConsec (b :: rest) else a :: dedupConsec (b :: rest)

theorem traj_cons {s : SysState} {steps : List Step} {states : List SysState}
    (h : traj s steps = some states) : ∃ tl, states = s :: tl := by
  cases steps with
  | nil =>
    simp only [traj, Option.some.injEq] at h
    exact ⟨[], h.symm⟩
  | cons stp rest =>
    cases hap : applyStep s stp with
    | none => simp [traj, hap] at h
    | some s' =>
      simp only [traj, hap] at h
      cases htr : traj s' rest with
      | none => simp [htr] at h
      | some states' =>
        rw [htr, Option.map_some'] at h
        exact ⟨states', (Option.some.inj h).symm⟩

/-! Auxiliary `statusOf` facts. -/

theorem statusOf_logLine (st : Store) (a b c d id : String) :
    statusOf (logLine st a b c d) id = statusOf st id := rfl

theorem statusOf_append_some {st : Store} {rest : Store} {row : JobRow} {id : String} {a}
    (hrest : rest.jobs = st.jobs ++ [row]) (h : statusOf st id = some a) :
    statusOf rest id = some a := by
  unfold statusOf at h ⊢
  rw [hrest, List.find?_append]
  cases hf : st.jobs.find? fun r => decide (r.id = id) with
  | none => simp [hf] at h
  | some r => rw [hf] at h; simpa using h

theorem statusOf_append_none {st : Store} {rest : Store} {row : JobRow} {id : String}
    (hrest : rest.jobs = st.jobs ++ [row]) (h : statusOf st id = none) :
    statusOf rest id = if row.id = id then some row.status else none := by
  unfold statusOf at h ⊢
  rw [hrest, List.find?_append]
  cases hf : st.jobs.find? fun r => decide (r.id = id) with
  | some r => simp [hf] at h
  | none =>
    by_cases hid : row.id = id
    · rw [List.find?_cons_of_pos _ (by simp [hid])]
      simp [hid]
    · rw [List.find?_cons_of_neg _ (by simp [hid])]
      simp [hid]

/-- Effect of one step on one job's status: a present row moves only along
the identity or a lifecycle edge, and an absent row can only appear queued. -/
theorem step_status {s s' : SysState} {stp : Step}
    (h : applyStep s stp = some s') (id : String) :
    (∀ a, statusOf s.store id = some a →
      ∃ b, statusOf s'.store id = some b ∧ (b = a ∨ Follows a b)) ∧
    (statusOf s.store id = none →
      statusOf s'.store id = none ∨ statusOf s'.store id = some JobStatus.queued) := by
  cases stp with
  | create id0 url ref now wd =>
    by_cases hc : id0 ∈ s.store.jobs.map JobRow.id
    · exfalso
      rw [applyStep.eq_def] at h
      simp only [] at h
      rw [if_pos hc] at h
      exact Option.noConfusion h
    · rw [applyStep.eq_def] at h
      simp only [] at h
      rw [if_neg hc] at h
      have h2 := Option.some.inj h
      have hjobs : s'.store.jobs = s.store.jobs ++
          [{ id := id0, status := JobStatus.queued, repo_url := url, ref := ref,
             created_at := now, workdir := some wd }] := by
        rw [← h2]
      constructor
      · intro a ha
        exact ⟨a, statusOf_append_some hjobs ha, Or.inl rfl⟩
      · intro ha
        rw [statusOf_append_none hjobs ha]
        by_cases hid : id0 = id
        · simp [hid]
        · simp [hid]
  | claim c now =>
    have hs' : s'.store = (claimJob s.store now).2 := by
      cases hcj : claimJob s.store now with
      | mk fst snd =>
        cases fst <;> simp only [applyStep, hcj, Option.some.injEq] at h <;>
          rw [← h]
    rcases claimJob_snd_cases s.store now with hsame | ⟨rid, hmap⟩
    · rw [hs', hsame]
      exact ⟨fun a ha => ⟨a, ha, Or.inl rfl⟩, fun ha => Or.inl ha⟩
    · rw [hs', hmap]
      have hst := statusOf_mapUpdate s.store
        (fun r => if r.id = rid ∧ r.status = JobStatus.queued then
          { r with status := JobStatus.running, started_at := some now } else r)
        (fun r => by (try dsimp only); split <;> rfl)
        { s.store with jobs := s.store.jobs.map fun r =>
            if r.id = rid ∧ r.status = JobStatus.queued then
              { r with status := JobStatus.running, started_at := some now }
            else r }
        id rfl
      constructor
      · intro a ha
        unfold statusOf at ha
        cases hf : s.store.jobs.find? fun r => decide (r.id = id) with
        | none => rw [hf] at ha; exact Option.noConfusion ha
        | some r =>
          rw [hf] at ha
          have hra : r.status = a := Option.some.inj ha
          rw [hst, hf]
          by_cases hcond : r.id = rid ∧ r.status = JobStatus.queued
          · refine ⟨JobStatus.running, by simp [hcond], Or.inr ?_⟩
            refine Or.inl ⟨?_, rfl⟩
            rw [← hra, hcond.2]
          · refine ⟨a, ?_, Or.inl rfl⟩
            simp only [Option.map_some']
            rw [if_neg hcond, hra]
      · intro ha
        unfold statusOf at ha
        cases hf : s.store.jobs.find? fun r => decide (r.id = id) with
        | some r => rw [hf] at ha; exact Option.noConfusion ha
        | none => left; rw [hst, hf]; rfl
  | setRunning id0 now wd =>
    by_cases hg : statusOf s.store id0 = some JobStatus.running
    · simp only [applyStep, hg, if_pos, Option.some.injEq] at h
      have hjobs : s'.store = setJobStatus s.store id0 JobStatus.running
          { started_at := some now, workdir := some wd } := by rw [← h]
      have hst := statusOf_mapUpdate s.store
        (fun r => if r.id = id0 then
          (colsFor JobStatus.running
            { started_at := some now, workdir := some wd }).foldl applyCol r
          else r)
        (fun r => by (try dsimp only); split <;> [exact foldl_applyCol_id _ _; rfl])
        (setJobStatus s.store id0 JobStatus.running
          { started_at := some now, workdir := some wd })
        id rfl
      constructor
      · intro a ha
        unfold statusOf at ha
        cases hf : s.store.jobs.find? fun r => decide (r.id = id) with
        | none => rw [hf] at ha; exact Option.noConfusion ha
        | some r =>
          rw [hf] at ha
          have hra : r.status = a := Option.some.inj ha
          rw [hjobs, hst, hf]
          by_cases hid : r.id = id0
          · have hp := List.find?_some hf
            have hrid : r.id = id := of_decide_eq_true hp
            have hii : id = id0 := hrid ▸ hid
            have ha0 : a = JobStatus.running := by
              rw [← hii] at hg
              unfold statusOf at hg
              rw [hf] at hg
              exact hra ▸ Option.some.inj hg
            exact ⟨JobStatus.running, by simp [hid, colsFor_status], Or.inl ha0.symm⟩
          · refine ⟨a, ?_, Or.inl rfl⟩
            simp only [Option.map_some']
            rw [if_neg hid, hra]
      · intro ha
        unfold statusOf at ha
        cases hf : s.store.jobs.find? fun r => decide (r.id = id) with
        | some r => rw [hf] at ha; exact Option.noConfusion ha
        | none => left; rw [hjobs, hst, hf]; rfl
    · simp [applyStep, hg] at h
  | finish id0 ok now err =>
    by_cases hg : statusOf s.store id0 = some JobStatus.running
    · simp only [applyStep, hg, if_pos, Option.some.injEq] at h
      have hjobs : s'.store = setJobStatus s.store id0
          (if ok then JobStatus.succeeded else JobStatus.failed)
          { finished_at := some now, error := some (if ok then "" else err) } := by
        rw [← h]
      have hst := statusOf_mapUpdate s.store
        (fun r => if r.id = id0 then
          (colsFor (if ok then JobStatus.succeeded else JobStatus.failed)
            { finished_at := some now, error := some (if ok then "" else err) }).foldl
            applyCol r
          else r)
        (fun r => by (try dsimp only); split <;> [exact foldl_applyCol_id _ _; rfl])
        (setJobStatus s.store id0
          (if ok then JobStatus.succeeded else JobStatus.failed)
          { finished_at := some now, error := some (if ok then "" else err) })
        id rfl
      constructor
      · intro a ha
        unfold statusOf at ha
        cases hf : s.store.jobs.find? fun r => decide (r.id = id) with
        | none => rw [hf] at ha; exact Option.noConfusion ha
        | some r =>
          rw [hf] at ha
          have hra : r.status = a := Option.some.inj ha
          rw [hjobs, hst, hf]
          by_cases hid : r.id = id0
          · have hp := List.find?_some hf
            have hrid : r.id = id := of_decide_eq_true hp
            have hii : id = id0 := hrid ▸ hid
            have ha0 : a = JobStatus.running := by
              rw [← hii] at hg
              unfold statusOf at hg
              rw [hf] at hg
              exact hra ▸ Option.some.inj hg
            refine ⟨if ok then JobStatus.succeeded else JobStatus.failed,
              by simp [hid, colsFor_status], Or.inr (Or.inr ⟨ha0, ?_⟩)⟩
            cases ok <;> simp
          · refine ⟨a, ?_, Or.inl rfl⟩
            simp only [Option.map_some']
            rw [if_neg hid, hra]
      · intro ha
        unfold statusOf at ha
        cases hf : s.store.jobs.find? fun r => decide (r.id = id) with
        | some r => rw [hf] at ha; exact Option.noConfusion ha
        | none => left; rw [hjobs, hst, hf]; rfl
    · simp [applyStep, hg] at h
  | log a b c d =>
    simp only [applyStep, Option.some.injEq] at h
    have : s'.store = logLine s.store a b c d := by rw [← h]
    rw [this, statusOf_logLine]
    exact ⟨fun a ha => ⟨a, ha, Or.inl rfl⟩, fun ha => Or.inl ha⟩

/-- Along any run, the statuses observed for one job form a legal sequence
from the start state's status. -/
theorem okFrom_traj (steps : List Step) :
    ∀ (s : SysState) (states : List SysState), traj s steps = some states →
      ∀ id, okFrom (statusOf s.store id)
        (states.tail.filterMap fun t => statusOf t.store id) := by
  induction steps with
  | nil =>
    intro s states h id
    simp only [traj, Option.some.injEq] at h
    rw [← h]
    exact trivial
  | cons stp rest ih =>
    intro s states h id
    cases hap : applyStep s stp with
    | none => simp [traj, hap] at h
    | some s' =>
      simp only [traj, hap] at h
      cases htr : traj s' rest with
      | none => simp [htr] at h
      | some states' =>
        rw [htr, Option.map_some'] at h
        obtain rfl := (Option.some.inj h).symm
        obtain ⟨tl, rfl⟩ := traj_cons htr
        have hok := ih s' _ htr id
        have hss := step_status hap id
        simp only [List.tail_cons] at hok ⊢
        cases hs' : statusOf s'.store id with
        | none =>
          rw [@List.filterMap_cons_none SysState JobStatus (fun t => statusOf t.store id) s' tl hs']
          cases hs : statusOf s.store id with
          | none => rw [hs'] at hok; exact hok
          | some a =>
            obtain ⟨b, hb, _⟩ := hss.1 a hs
            rw [hs'] at hb
            exact Option.noConfusion hb
        | some x =>
          rw [@List.filterMap_cons_some SysState JobStatus (fun t => statusOf t.store id) s' tl x hs']
          refine ⟨?_, by rw [hs'] at hok; exact hok⟩
          cases hs : statusOf s.store id with
          | none =>
            rcases hss.2 hs with hnone | hq
            · rw [hs'] at hnone; exact Option.noConfusion hnone
            · rw [hs'] at hq
              exact Option.some.inj hq.symm ▸ rfl
          | some a =>
            obtain ⟨b, hb, hba⟩ := hss.1 a hs
            rw [hs'] at hb
            obtain rfl := Option.some.inj hb
            exact hba

/-! Collapsing a legal observation sequence. -/

theorem dedup_terminal (t : JobStatus)
    (ht : t = JobStatus.succeeded ∨ t = JobStatus.failed) :
    ∀ tr, okFrom (some t) tr → dedupConsec (t :: tr) = [t] := by
  intro tr
  induction tr with
  | nil => intro; rfl
  | cons x rest ih =>
    intro hok
    obtain ⟨hstep, hrest⟩ := hok
    have hx : x = t := by
      rcases hstep with h | h
      · exact h
      · rcases ht with rfl | rfl <;> rcases h with ⟨h1, _⟩ | ⟨h1, _⟩ <;>
          exact absurd h1 (by simp)
    subst hx
    show dedupConsec (x :: x :: rest) = [x]
    rw [dedupConsec, if_pos rfl]
    exact ih hrest

theorem dedup_running :
    ∀ tr, okFrom (some JobStatus.running) tr →
      dedupConsec (JobStatus.running :: tr) ∈
        ([[JobStatus.running], [JobStatus.running, JobStatus.succeeded],
          [JobStatus.running, JobStatus.failed]] : List (List JobStatus)) := by
  intro tr
  induction tr with
  | nil => intro; simp [dedupConsec]
  | cons x rest ih =>
    intro hok
    obtain ⟨hstep, hrest⟩ := hok
    have hx : x = JobStatus.running ∨ x = JobStatus.succeeded ∨ x = JobStatus.failed := by
      rcases hstep with h | h
      · exact Or.inl h
      · rcases h with ⟨h1, _⟩ | ⟨_, h2⟩
        · exact absurd h1 (by simp)
        · exact Or.inr h2
    rcases hx with rfl | rfl | rfl
    · rw [dedupConsec, if_pos rfl]
      exact ih hrest
    · rw [dedupConsec, if_neg (by simp)]
      rw [dedup_terminal _ (Or.inl rfl) rest hrest]
      simp
    · rw [dedupConsec, if_neg (by simp)]
      rw [dedup_terminal _ (Or.inr rfl) rest hrest]
      simp

theorem dedup_queued :
    ∀ tr, okFrom (some JobStatus.queued) tr →
      dedupConsec (JobStatus.queued :: tr) ∈
        ([[JobStatus.queued], [JobStatus.queued, JobStatus.running],
          [JobStatus.queued, JobStatus.running, JobStatus.succeeded],
          [JobStatus.queued, JobStatus.running, JobStatus.failed]] :
          List (List JobStatus)) := by
  intro tr
  induction tr with
  | nil => intro; simp [dedupConsec]
  | cons x rest ih =>
    intro hok
    obtain ⟨hstep, hrest⟩ := hok
    have hx : x = JobStatus.queued ∨ x = JobStatus.running := by
      rcases hstep with h | h
      · exact Or.inl h
      · rcases h with ⟨_, h2⟩ | ⟨h1, _⟩
        · exact Or.inr h2
        · exact absurd h1 (by simp)
    rcases hx with rfl | rfl
    · rw [dedupConsec, if_pos rfl]
      exact ih hrest
    · rw [dedupConsec, if_neg (by simp)]
      have := dedup_running rest hrest
      simp only [List.mem_cons, List.not_mem_nil, or_false] at this ⊢
      rcases this with h | h | h <;> rw [h] <;> simp

theorem dedup_none_start :
    ∀ tr, okFrom none tr →
      dedupConsec tr ∈
        ([[], [JobStatus.queued], [JobStatus.queued, JobStatus.running],
          [JobStatus.queued, JobStatus.running, JobStatus.succeeded],
          [JobStatus.queued, JobStatus.running, JobStatus.failed]] :
          List (List JobStatus)) := by
  intro tr hok
  cases tr with
  | nil => simp [dedupConsec]
  | cons x rest =>
    obtain ⟨hstep, hrest⟩ := hok
    have hx : x = JobStatus.queued := hstep
    subst hx
    have := dedup_queued rest hrest
    simp only [List.mem_cons, List.not_mem_nil, or_false] at this ⊢
    rcases this with h | h | h | h <;> rw [h] <;> simp

/-! Claim C2. -/

/-- Claim C2 (confirmed): over any run of the system from the empty store
(jobs created by the POST /scan insert, claimed by `claimJob`, processed and
finished by `processJob`'s `setJobStatus` writes), the sequence of distinct
status values any one job takes — the consecutively-deduplicated sequence of
its observed statuses — is a prefix of queued, running, then succeeded or
failed: never backward, never skipping forward, never re-queued. -/
theorem C2_lifecycle_monotonicity (steps : List Step) (states : List SysState)
    (h : traj {} steps = some states) (id : String) :
    dedupConsec (states.filterMap fun t => statusOf t.store id) ∈
      ([[], [JobStatus.queued], [JobStatus.queued, JobStatus.running],
        [JobStatus.queued, JobStatus.running, JobStatus.succeeded],
        [JobStatus.queued, JobStatus.running, JobStatus.failed]] :
        List (List JobStatus)) := by
  obtain ⟨tl, rfl⟩ := traj_cons h
  have hok := okFrom_traj steps {} _ h id
  have h0 : statusOf ({} : SysState).store id = none := rfl
  rw [h0] at hok
  simp only [List.tail_cons] at hok
  rw [@List.filterMap_cons_none SysState JobStatus (fun t => statusOf t.store id) {} tl h0]
  exact dedup_none_start _ hok

/-- A short concrete run: one job is created, claimed, processed and finished
successfully, while a second claim attempt comes back empty. -/
def c2Steps : List Step :=
  [Step.create "a" "https://github.com/x/y.git" none 5 "w",
   Step.claim 1 "t1",
   Step.claim 2 "t2",
   Step.setRunning "a" "t1" "w",
   Step.log "a" "info" "Running Trivy..." "t3",
   Step.finish "a" true "t4" ""]

/-- The states such a run visits. -/
def c2States : List SysState := (traj {} c2Steps).getD []

/-- Claim C2 witness: the theorem applied to the concrete six-step run. -/
theorem C2_lifecycle_monotonicity_witness :
    dedupConsec (c2States.filterMap fun t => statusOf t.store "a") ∈
      ([[], [JobStatus.queued], [JobStatus.queued, JobStatus.running],
        [JobStatus.queued, JobStatus.running, JobStatus.succeeded],
        [JobStatus.queued, JobStatus.running, JobStatus.failed]] :
        List (List JobStatus)) :=
  C2_lifecycle_monotonicity c2Steps c2States (by decide) "a"

/-! Claim exclusivity machinery. -/

theorem map_id_of_preserve {l : List JobRow} {g : JobRow → JobRow}
    (hg : ∀ r, (g r).id = r.id) :
    (l.map g).map JobRow.id = l.map JobRow.id := by
  induction l with
  | nil => rfl
  | cons j rest ih => simp only [List.map_cons, hg, ih]

theorem claimJob_ids (st : Store) (now : String) :
    (claimJob st now).2.jobs.map JobRow.id = st.jobs.map JobRow.id := by
  rcases claimJob_snd_cases st now with h | ⟨rid, h⟩
  · rw [h]
  · rw [h]
    exact map_id_of_preserve fun r => by (try dsimp only); split <;> rfl

theorem setJobStatus_ids (st : Store) (jobId : String) (stat : JobStatus) (f : SetFields) :
    (setJobStatus st jobId stat f).jobs.map JobRow.id = st.jobs.map JobRow.id :=
  map_id_of_preserve fun r => by
    (try dsimp only)
    split <;> [exact foldl_applyCol_id _ _; rfl]

/-- Once a job has left queued, no step brings it back. -/
theorem step_no_requeue {s s' : SysState} {stp : Step} (h : applyStep s stp = some s')
    {id : String} (hq : statusOf s'.store id = some JobStatus.queued)
    (hne : statusOf s.store id ≠ some JobStatus.queued) :
    statusOf s.store id = none := by
  cases hs : statusOf s.store id with
  | none => rfl
  | some a =>
    obtain ⟨b, hb, hba⟩ := (step_status h id).1 a hs
    rw [hq] at hb
    obtain rfl := Option.some.inj hb
    rcases hba with rfl | hf
    · exact absurd hs hne
    · rcases hf with ⟨_, h2⟩ | ⟨_, h2 | h2⟩ <;> exact JobStatus.noConfusion h2

/-- Successful claims: a row still queued is returned as running with
`started_at` stamped, and the store records the transition. -/
theorem claimJob_fst_some {st : Store} {now : String} {j : JobRow}
    (hnd : (st.jobs.map JobRow.id).Nodup) (h : (claimJob st now).1 = some j) :
    statusOf st j.id = some JobStatus.queued ∧
    statusOf (claimJob st now).2 j.id = some JobStatus.running ∧
    j.status = JobStatus.running ∧ j.started_at = some now := by
  cases hsel : selectQueued st.jobs with
  | none => simp [claimJob, hsel] at h
  | some row =>
    obtain ⟨hmem, hq⟩ := selectQueued_mem _ _ hsel
    have hcnt := countP_id_queued hnd hmem hq
    have hfind : (st.jobs.map (fun r =>
        if r.id = row.id ∧ r.status = JobStatus.queued then
          { r with status := JobStatus.running, started_at := some now }
        else r)).find? (fun q => decide (q.id = row.id)) =
        some { row with status := JobStatus.running, started_at := some now } := by
      rw [find?_id_map _ (fun q => by (try dsimp only); split <;> rfl) row.id,
        find?_id_unique hnd hmem]
      simp [hq]
    have hclaim : (claimJob st now).1 =
        some { row with status := JobStatus.running, started_at := some now } := by
      simp only [claimJob, hsel, hcnt]
      simp [hfind]
    rw [hclaim] at h
    obtain rfl := (Option.some.inj h).symm
    refine ⟨?_, ?_, rfl, rfl⟩
    · show statusOf st row.id = some JobStatus.queued
      unfold statusOf
      rw [find?_id_unique hnd hmem]
      simp [hq]
    · show statusOf (claimJob st now).2 row.id = some JobStatus.running
      have hsnd : (claimJob st now).2 = { st with jobs := st.jobs.map fun r =>
          if r.id = row.id ∧ r.status = JobStatus.queued then
            { r with status := JobStatus.running, started_at := some now }
          else r } := by
        simp only [claimJob, hsel]
        split <;> rfl
      rw [hsnd,
        statusOf_mapUpdate st _ (fun r => by (try dsimp only); split <;> rfl) _ row.id rfl,
        find?_id_unique hnd hmem]
      simp [hq]

/-- `claimJob` never moves a job back to queued. -/
theorem claimJob_no_requeue {st : Store} {now : String} {id : String}
    (h : statusOf (claimJob st now).2 id = some JobStatus.queued) :
    statusOf st id = some JobStatus.queued := by
  rcases claimJob_snd_cases st now with hs | ⟨rid, hs⟩
  · rw [hs] at h
    exact h
  · rw [hs] at h
    rw [statusOf_mapUpdate st _ (fun r => by (try dsimp only); split <;> rfl) _ id rfl] at h
    cases hf : st.jobs.find? (fun r => decide (r.id = id)) with
    | none => rw [hf] at h; exact Option.noConfusion h
    | some r =>
      rw [hf, Option.map_some'] at h
      have hgr := Option.some.inj h
      (try dsimp only at hgr)
      by_cases hcond : r.id = rid ∧ r.status = JobStatus.queued
      · rw [if_pos hcond] at hgr
        exact absurd hgr (by simp)
      · rw [if_neg hcond] at hgr
        unfold statusOf
        rw [hf, Option.map_some', hgr]

/-- The run invariant: primary-key uniqueness, every successful claim names an
existing job, no job id is ever claimed twice, and a claimed job is no longer
queued. -/
def Inv (s : SysState) : Prop :=
  (s.store.jobs.map JobRow.id).Nodup ∧
  (∀ p ∈ s.claimed, p.2 ∈ s.store.jobs.map JobRow.id) ∧
  (s.claimed.map Prod.snd).Nodup ∧
  (∀ p ∈ s.claimed, statusOf s.store p.2 ≠ some JobStatus.queued)

theorem inv_init : Inv {} :=
  ⟨List.nodup_nil, fun p hp => absurd hp (List.not_mem_nil p),
    List.nodup_nil, fun p hp => absurd hp (List.not_mem_nil p)⟩

theorem statusOf_isSome_of_mem {st : Store} {id : String}
    (h : id ∈ st.jobs.map JobRow.id) : ∃ a, statusOf st id = some a := by
  obtain ⟨r, hr, hrid⟩ := List.mem_map.mp h
  have : ∃ x ∈ st.jobs, decide (x.id = id) = true := ⟨r, hr, by simp [hrid]⟩
  obtain ⟨q, hq⟩ := Option.isSome_iff_exists.mp (List.find?_isSome.mpr this)
  exact ⟨q.status, by unfold statusOf; rw [hq]; rfl⟩

theorem mem_ids_of_statusOf {st : Store} {id : String} {a : JobStatus}
    (h : statusOf st id = some a) : id ∈ st.jobs.map JobRow.id := by
  unfold statusOf at h
  cases hf : st.jobs.find? fun r => decide (r.id = id) with
  | none => rw [hf] at h; exact Option.noConfusion h
  | some r =>
    have hp := List.find?_some hf
    have hrid : r.id = id := of_decide_eq_true hp
    exact hrid ▸ List.mem_map_of_mem JobRow.id (List.mem_of_find?_eq_some hf)

/-- Every step preserves the invariant. -/
theorem applyStep_inv {s s' : SysState} {stp : Step}
    (h : applyStep s stp = some s') (hinv : Inv s) : Inv s' := by
  obtain ⟨h1, h2, h3, h4⟩ := hinv
  cases stp with
  | create id0 url ref now wd =>
    by_cases hc : id0 ∈ s.store.jobs.map JobRow.id
    · exfalso
      rw [applyStep.eq_def] at h
      simp only [] at h
      rw [if_pos hc] at h
      exact Option.noConfusion h
    · rw [applyStep.eq_def] at h
      simp only [] at h
      rw [if_neg hc] at h
      have h2' := Option.some.inj h
      have hjobs : s'.store.jobs = s.store.jobs ++
          [{ id := id0, status := JobStatus.queued, repo_url := url, ref := ref,
             created_at := now, workdir := some wd }] := by rw [← h2']
      have hclaimed : s'.claimed = s.claimed := by rw [← h2']
      have hids : s'.store.jobs.map JobRow.id = s.store.jobs.map JobRow.id ++ [id0] := by
        rw [hjobs, List.map_append]
        rfl
      refine ⟨?_, ?_, ?_, ?_⟩
      · rw [hids]
        exact List.Nodup.append h1 (List.nodup_singleton id0)
          (fun a ha hb => hc ((List.mem_singleton.mp hb) ▸ ha))
      · intro p hp
        rw [hclaimed] at hp
        rw [hids]
        exact List.mem_append_left _ (h2 p hp)
      · rw [hclaimed]; exact h3
      · intro p hp
        rw [hclaimed] at hp
        obtain ⟨a, ha⟩ := statusOf_isSome_of_mem (h2 p hp)
        rw [statusOf_append_some hjobs ha]
        intro hcontra
        exact h4 p hp (ha.trans hcontra)
  | claim c now =>
    cases hcj : claimJob s.store now with
    | mk fst snd =>
      have hsnd : snd = (claimJob s.store now).2 := by rw [hcj]
      have hids : snd.jobs.map JobRow.id = s.store.jobs.map JobRow.id := by
        rw [hsnd, claimJob_ids]
      cases fst with
      | none =>
        simp only [applyStep, hcj, Option.some.injEq] at h
        have hstore : s'.store = snd := by rw [← h]
        have hclaimed : s'.claimed = s.claimed := by rw [← h]
        refine ⟨by rw [hstore, hids]; exact h1, ?_, by rw [hclaimed]; exact h3, ?_⟩
        · intro p hp
          rw [hclaimed] at hp
          rw [hstore, hids]
          exact h2 p hp
        · intro p hp hq
          rw [hclaimed] at hp
          rw [hstore, hsnd] at hq
          have := claimJob_no_requeue hq
          exact h4 p hp this
      | some j =>
        simp only [applyStep, hcj, Option.some.injEq] at h
        have hstore : s'.store = snd := by rw [← h]
        have hclaimed : s'.claimed = s.claimed ++ [(c, j.id)] := by rw [← h]
        have hfst : (claimJob s.store now).1 = some j := by rw [hcj]
        obtain ⟨hpre, hpost, _, _⟩ := claimJob_fst_some h1 hfst
        refine ⟨by rw [hstore, hids]; exact h1, ?_, ?_, ?_⟩
        · intro p hp
          rw [hclaimed] at hp
          rw [hstore, hids]
          rcases List.mem_append.mp hp with hp' | hp'
          · exact h2 p hp'
          · obtain rfl := List.mem_singleton.mp hp'
            exact mem_ids_of_statusOf hpre
        · rw [hclaimed, List.map_append]
          refine List.Nodup.append h3 (List.nodup_singleton _) ?_
          intro a ha hb
          obtain rfl := List.mem_singleton.mp hb
          obtain ⟨p, hp, hpa⟩ := List.mem_map.mp ha
          exact h4 p hp (hpa ▸ hpre)
        · intro p hp hq
          rw [hclaimed] at hp
          rw [hstore, hsnd] at hq
          rcases List.mem_append.mp hp with hp' | hp'
          · exact h4 p hp' (claimJob_no_requeue hq)
          · obtain rfl := List.mem_singleton.mp hp'
            rw [hpost] at hq
            exact JobStatus.noConfusion (Option.some.inj hq)
  | setRunning id0 now wd =>
    by_cases hg : statusOf s.store id0 = some JobStatus.running
    · simp only [applyStep, hg, if_pos, Option.some.injEq] at h
      have hstore : s'.store = setJobStatus s.store id0 JobStatus.running
          { started_at := some now, workdir := some wd } := by rw [← h]
      have hclaimed : s'.claimed = s.claimed := by rw [← h]
      have hids : s'.store.jobs.map JobRow.id = s.store.jobs.map JobRow.id := by
        rw [hstore, setJobStatus_ids]
      refine ⟨by rw [hids]; exact h1, ?_, by rw [hclaimed]; exact h3, ?_⟩
      · intro p hp
        rw [hclaimed] at hp
        rw [hids]
        exact h2 p hp
      · intro p hp hq
        rw [hclaimed] at hp
        have hap2 : applyStep s (Step.setRunning id0 now wd) = some s' := by
          rw [applyStep.eq_def]
          simp only []
          rw [if_pos hg, h]
        have := step_no_requeue hap2 hq (h4 p hp)
        obtain ⟨a, ha⟩ := statusOf_isSome_of_mem (h2 p hp)
        rw [this] at ha
        exact Option.noConfusion ha
    · simp [applyStep, hg] at h
  | finish id0 ok now err =>
    by_cases hg : statusOf s.store id0 = some JobStatus.running
    · simp only [applyStep, hg, if_pos, Option.some.injEq] at h
      have hstore : s'.store = setJobStatus s.store id0
          (if ok then JobStatus.succeeded else JobStatus.failed)
          { finished_at := some now, error := some (if ok then "" else err) } := by
        rw [← h]
      have hclaimed : s'.claimed = s.claimed := by rw [← h]
      have hids : s'.store.jobs.map JobRow.id = s.store.jobs.map JobRow.id := by
        rw [hstore, setJobStatus_ids]
      refine ⟨by rw [hids]; exact h1, ?_, by rw [hclaimed]; exact h3, ?_⟩
      · intro p hp
        rw [hclaimed] at hp
        rw [hids]
        exact h2 p hp
      · intro p hp hq
        rw [hclaimed] at hp
        have hap2 : applyStep s (Step.finish id0 ok now err) = some s' := by
          rw [applyStep.eq_def]
          simp only []
          rw [if_pos hg, h]
        have := step_no_requeue hap2 hq (h4 p hp)
        obtain ⟨a, ha⟩ := statusOf_isSome_of_mem (h2 p hp)
        rw [this] at ha
        exact Option.noConfusion ha
    · simp [applyStep, hg] at h
  | log a b c d =>
    simp only [applyStep, Option.some.injEq] at h
    have hstore : s'.store = logLine s.store a b c d := by rw [← h]
    have hclaimed : s'.claimed = s.claimed := by rw [← h]
    have hjobs : s'.store.jobs = s.store.jobs := by rw [hstore]; rfl
    have hids : s'.store.jobs.map JobRow.id = s.store.jobs.map JobRow.id := by
      rw [hjobs]
    refine ⟨by rw [hids]; exact h1, ?_, by rw [hclaimed]; exact h3, ?_⟩
    · intro p hp
      rw [hclaimed] at hp
      rw [hids]
      exact h2 p hp
    · intro p hp
      rw [hclaimed] at hp
      rw [hstore, statusOf_logLine]
      exact h4 p hp

theorem runSteps_inv (steps : List Step) :
    ∀ s s', runSteps s steps = some s' → Inv s → Inv s' := by
  induction steps with
  | nil =>
    intro s s' h hinv
    simp only [runSteps, Option.some.injEq] at h
    rw [← h]
    exact hinv
  | cons stp rest ih =>
    intro s s' h hinv
    cases hap : applyStep s stp with
    | none => simp [runSteps, hap] at h
    | some s1 =>
      simp only [runSteps, hap] at h
      exact ih s1 s' h (applyStep_inv hap hinv)

/-! Claim C1. -/

/-- Claim C1 (confirmed): over any interleaving of the system's atomic
database interactions starting from the empty store, at most one caller ever
receives a given job — the job ids of the successful claims are pairwise
distinct, every other attempt at that job coming back empty — and `claimJob`
hands out a job only by transitioning a row whose status is still queued at
the moment of the conditional update to running, stamping `started_at`. -/
theorem C1_claim_exclusivity :
    (∀ steps s, runSteps {} steps = some s → (s.claimed.map Prod.snd).Nodup) ∧
    (∀ st now j, (st.jobs.map JobRow.id).Nodup → (claimJob st now).1 = some j →
      statusOf st j.id = some JobStatus.queued ∧
      statusOf (claimJob st now).2 j.id = some JobStatus.running ∧
      j.status = JobStatus.running ∧ j.started_at = some now) :=
  ⟨fun steps s h => (runSteps_inv steps {} s h inv_init).2.2.1,
   fun _ _ _ hnd h => claimJob_fst_some hnd h⟩

/-- A run where three workers race for two queued jobs; the third claim
comes back empty. -/
def c1Steps : List Step :=
  [Step.create "a" "https://github.com/x/y.git" none 3 "w",
   Step.create "b" "https://github.com/x/z.git" none 4 "w2",
   Step.claim 1 "t1", Step.claim 2 "t2", Step.claim 3 "t3"]

/-- The final state of that run. -/
def c1Final : SysState := (runSteps {} c1Steps).getD {}

/-- Claim C1 witness: the exclusivity theorem applied to the concrete
three-claimer run. -/
theorem C1_claim_exclusivity_witness : (c1Final.claimed.map Prod.snd).Nodup :=
  C1_claim_exclusivity.1 c1Steps c1Final (by decide)

/-! The pipeline executor (worker.ts `processJob`). -/

/-- The error column of the job row with the given id (outer `none`: no such
row; inner option: the nullable SQL column). -/
def errorOf (st : Store) (id : String) : Option (Option String) :=
  (st.jobs.find? fun r => decide (r.id = id)).map JobRow.error

/-- Outcomes of `processJob`'s awaited external calls: the clone, then one
parsed result — serialized summary and raw document — or thrown error
message per scan driver. -/
structure StageOutcomes where
  clone : Except String Unit
  trivy : Except String (String × String)
  semgrep : Except String (String × String)
  grype : Except String (String × String)
deriving Repr

/-- worker.ts `processJob` with each awaited external call replaced by its
outcome: set running, log, clone, then Trivy, Semgrep, Grype in that fixed
order, inserting each driver's finding immediately after it succeeds; the
first failure jumps to the catch block, which logs the message and marks the
job failed with the message recorded. Returns the final store and the list
of external stages that were started. -/
def processJob (st : Store) (jobId repoDesc workdir : String)
    (o : StageOutcomes) (now : String) : Store × List String :=
  let fail := fun (st1 : Store) (invoked : List String) (msg : String) =>
    (setJobStatus (logLine st1 jobId "error" msg now) jobId JobStatus.failed
      { finished_at := some now, error := some msg }, invoked)
  let st1 := setJobStatus st jobId JobStatus.running
    { started_at := some now, workdir := some workdir }
  let st2 := logLine st1 jobId "info" repoDesc now
  let st3 := logLine st2 jobId "info" "Cloning repository (docker git)..." now
  match o.clone with
  | .error e => fail st3 ["git-clone"] e
  | .ok _ =>
    let st4 := logLine st3 jobId "info" "Running Trivy..." now
    match o.trivy with
    | .error e => fail st4 ["git-clone", "trivy"] e
    | .ok tr =>
      let st5 := insertFinding st4 jobId "trivy" tr.1 tr.2 now
      let st6 := logLine st5 jobId "info" "Running Semgrep..." now
      match o.semgrep with
      | .error e => fail st6 ["git-clone", "trivy", "semgrep"] e
      | .ok sg =>
        let st7 := insertFinding st6 jobId "semgrep" sg.1 sg.2 now
        let st8 := logLine st7 jobId "info" "Running Grype..." now
        match o.grype with
        | .error e => fail st8 ["git-clone", "trivy", "semgrep", "grype"] e
        | .ok gr =>
          let st9 := insertFinding st8 jobId "grype" gr.1 gr.2 now
          let st10 := setJobStatus st9 jobId JobStatus.succeeded
            { finished_at := some now, error := some "" }
          (logLine st10 jobId "info" "Job finished" now,
           ["git-clone", "trivy", "semgrep", "grype"])

/-! Field-level effect of `setJobStatus`. -/

theorem foldl_colsFor_fields (stat : JobStatus) (f : SetFields) (r : JobRow) :
    (colsFor stat f).foldl applyCol r =
      { r with
        status := stat,
        started_at := match f.started_at with
          | some s => if s ≠ "" then some s else r.started_at
          | none => r.started_at,
        finished_at := match f.finished_at with
          | some s => if s ≠ "" then some s else r.finished_at
          | none => r.finished_at,
        error := match f.error with
          | some e => some e
          | none => r.error,
        workdir := match f.workdir with
          | some s => if s ≠ "" then some s else r.workdir
          | none => r.workdir } := by
  obtain ⟨fs, ff, fe, fw⟩ := f
  cases fs <;> cases ff <;> cases fe <;> cases fw <;>
    simp only [colsFor] <;> (first | rfl | (split_ifs <;> rfl))

theorem statusOf_insertFinding (st : Store) (a b c d e id : String) :
    statusOf (insertFinding st a b c d e) id = statusOf st id := rfl

theorem errorOf_insertFinding (st : Store) (a b c d e id : String) :
    errorOf (insertFinding st a b c d e) id = errorOf st id := rfl

theorem errorOf_logLine (st : Store) (a b c d id : String) :
    errorOf (logLine st a b c d) id = errorOf st id := rfl

theorem upd_id_preserve (jobId : String) (stat : JobStatus) (f : SetFields) :
    ∀ q : JobRow,
      ((fun r => if r.id = jobId then (colsFor stat f).foldl applyCol r else r) q).id =
        q.id := by
  intro q
  (try dsimp only)
  split
  · exact foldl_applyCol_id _ _
  · rfl

theorem statusOf_setJobStatus_self (st : Store) (jobId : String)
    (stat : JobStatus) (f : SetFields) :
    statusOf (setJobStatus st jobId stat f) jobId =
      (statusOf st jobId).map fun _ => stat := by
  unfold statusOf setJobStatus
  rw [find?_id_map _ (upd_id_preserve jobId stat f) jobId]
  cases hf : st.jobs.find? fun r => decide (r.id = jobId) with
  | none => rfl
  | some r =>
    have hp := List.find?_some hf
    have hrid : r.id = jobId := of_decide_eq_true hp
    simp only [Option.map_some']
    rw [if_pos hrid, foldl_colsFor_fields]

theorem errorOf_setJobStatus_self (st : Store) (jobId : String)
    (stat : JobStatus) (f : SetFields) (e : String) (he : f.error = some e) :
    errorOf (setJobStatus st jobId stat f) jobId =
      (errorOf st jobId).map fun _ => some e := by
  unfold errorOf setJobStatus
  rw [find?_id_map _ (upd_id_preserve jobId stat f) jobId]
  cases hf : st.jobs.find? fun r => decide (r.id = jobId) with
  | none => rfl
  | some r =>
    have hp := List.find?_some hf
    have hrid : r.id = jobId := of_decide_eq_true hp
    simp only [Option.map_some']
    rw [if_pos hrid, foldl_colsFor_fields]
    simp [he]

theorem errorOf_eq_of_statusOf {st : Store} {id : String} {a : JobStatus}
    (h : statusOf st id = some a) : ∃ er, errorOf st id = some er := by
  unfold statusOf at h
  unfold errorOf
  cases hf : st.jobs.find? (fun r => decide (r.id = id)) with
  | none => rw [hf] at h; exact Option.noConfusion h
  | some r => exact ⟨r.error, rfl⟩

/-! Claim C3. -/

/-- Claim C3 (confirmed): with the pipeline fixed as Trivy, Semgrep, Grype,
if the clone and the first driver succeed and the second driver throws, the
job ends failed with the thrown message recorded in its error column, the
findings table gains exactly the first driver's finding, and the third driver
is never started; moreover the first driver's finding is persisted as soon as
that driver completes, whatever the later stages do. -/
theorem C3_fail_fast (st : Store) (jobId repoDesc workdir now : String)
    (o : StageOutcomes) (tsum traw e : String)
    (hex : jobId ∈ st.jobs.map JobRow.id)
    (hclone : o.clone = Except.ok ())
    (htrivy : o.trivy = Except.ok (tsum, traw))
    (hsem : o.semgrep = Except.error e) :
    statusOf (processJob st jobId repoDesc workdir o now).1 jobId =
      some JobStatus.failed ∧
    errorOf (processJob st jobId repoDesc workdir o now).1 jobId = some (some e) ∧
    (processJob st jobId repoDesc workdir o now).1.findings =
      st.findings ++ [⟨st.nextFindingId, jobId, "trivy", now, tsum, traw⟩] ∧
    (processJob st jobId repoDesc workdir o now).2 =
      ["git-clone", "trivy", "semgrep"] ∧
    "grype" ∉ (processJob st jobId repoDesc workdir o now).2 ∧
    (∀ o' : StageOutcomes, o'.clone = Except.ok () → o'.trivy = Except.ok (tsum, traw) →
      (⟨st.nextFindingId, jobId, "trivy", now, tsum, traw⟩ : FindingRow) ∈
        (processJob st jobId repoDesc workdir o' now).1.findings) := by
  obtain ⟨a, ha⟩ := statusOf_isSome_of_mem hex
  have hres : processJob st jobId repoDesc workdir o now =
      (setJobStatus
        (logLine (logLine (insertFinding
          (logLine (logLine (logLine
            (setJobStatus st jobId JobStatus.running
              { started_at := some now, workdir := some workdir })
            jobId "info" repoDesc now)
            jobId "info" "Cloning repository (docker git)..." now)
            jobId "info" "Running Trivy..." now)
          jobId "trivy" tsum traw now)
          jobId "info" "Running Semgrep..." now)
          jobId "error" e now)
        jobId JobStatus.failed { finished_at := some now, error := some e },
       ["git-clone", "trivy", "semgrep"]) := by
    simp only [processJob, hclone, htrivy, hsem]
  refine ⟨?_, ?_, ?_, ?_, ?_, ?_⟩
  · rw [hres]
    simp only [statusOf_setJobStatus_self, statusOf_logLine, statusOf_insertFinding,
      ha, Option.map_some']
  · rw [hres]
    rw [errorOf_setJobStatus_self _ _ _ _ e rfl]
    have h1 : statusOf (logLine (logLine (insertFinding (logLine (logLine (logLine
        (setJobStatus st jobId JobStatus.running
          { started_at := some now, workdir := some workdir })
        jobId "info" repoDesc now)
        jobId "info" "Cloning repository (docker git)..." now)
        jobId "info" "Running Trivy..." now)
        jobId "trivy" tsum traw now)
        jobId "info" "Running Semgrep..." now)
        jobId "error" e now) jobId = some JobStatus.running := by
      simp only [statusOf_logLine, statusOf_insertFinding, statusOf_setJobStatus_self,
        ha, Option.map_some']
    obtain ⟨er, her⟩ := errorOf_eq_of_statusOf h1
    rw [her]
    rfl
  · rw [hres]
    simp [setJobStatus, logLine, insertFinding]
  · rw [hres]
  · rw [hres]
    show "grype" ∉ ["git-clone", "trivy", "semgrep"]
    decide
  · intro o' hclone' htrivy'
    have hmem : (⟨st.nextFindingId, jobId, "trivy", now, tsum, traw⟩ : FindingRow) ∈
        (insertFinding (logLine (logLine (logLine
          (setJobStatus st jobId JobStatus.running
            { started_at := some now, workdir := some workdir })
          jobId "info" repoDesc now)
          jobId "info" "Cloning repository (docker git)..." now)
          jobId "info" "Running Trivy..." now)
        jobId "trivy" tsum traw now).findings := by
      simp [insertFinding, logLine, setJobStatus]
    cases hsg : o'.semgrep with
    | error e' =>
      simp only [processJob, hclone', htrivy', hsg]
      simpa [setJobStatus, logLine, insertFinding] using hmem
    | ok sg =>
      cases hgr : o'.grype with
      | error e' =>
        simp only [processJob, hclone', htrivy', hsg, hgr]
        simpa [setJobStatus, logLine, insertFinding] using hmem
      | ok gr =>
        simp only [processJob, hclone', htrivy', hsg, hgr]
        simpa [setJobStatus, logLine, insertFinding] using hmem

/-- A one-row store with a claimed job, ready for processing. -/
def c3Store : Store :=
  { jobs := [{ id := "a", status := JobStatus.running,
               repo_url := "https://github.com/x/y.git", ref := none,
               created_at := 3, started_at := some "t1" }] }

/-- The stage outcomes of a run whose second driver throws. -/
def c3Outcomes : StageOutcomes :=
  { clone := Except.ok (), trivy := Except.ok ("ts", "tr"),
    semgrep := Except.error "semgrep failed: boom", grype := Except.ok ("gs", "gr") }

/-- Claim C3 witness: the fail-fast theorem applied to the concrete run. -/
theorem C3_fail_fast_witness :
    statusOf (processJob c3Store "a" "d" "w" c3Outcomes "t2").1 "a" =
      some JobStatus.failed ∧
    errorOf (processJob c3Store "a" "d" "w" c3Outcomes "t2").1 "a" =
      some (some "semgrep failed: boom") ∧
    (processJob c3Store "a" "d" "w" c3Outcomes "t2").1.findings =
      c3Store.findings ++
        [⟨c3Store.nextFindingId, "a", "trivy", "t2", "ts", "tr"⟩] ∧
    (processJob c3Store "a" "d" "w" c3Outcomes "t2").2 =
      ["git-clone", "trivy", "semgrep"] ∧
    "grype" ∉ (processJob c3Store "a" "d" "w" c3Outcomes "t2").2 ∧
    (∀ o' : StageOutcomes, o'.clone = Except.ok () →
      o'.trivy = Except.ok ("ts", "tr") →
      (⟨c3Store.nextFindingId, "a", "trivy", "t2", "ts", "tr"⟩ : FindingRow) ∈
        (processJob c3Store "a" "d" "w" o' "t2").1.findings) :=
  C3_fail_fast c3Store "a" "d" "w" "t2" c3Outcomes "ts" "tr" "semgrep failed: boom"
    (by decide) rfl rfl rfl

/-! Claim C10. -/

/-- Claim C10 (confirmed): `setJobStatus(db, jobId, status, fields)` touches
only the jobs row whose id is `jobId` — lookups of every other id, the logs
table and the findings table are unchanged, and rows with other ids stay in
the table verbatim — and on the target row it writes the status plus exactly
the provided fields: an empty string passed for `started_at`, `finished_at`
or `workdir` is skipped (the falsy check leaves the column unchanged), while
an empty string passed for `error` does overwrite the error column, which is
how a succeeding job's stale error is cleared; id, repo_url, ref and
created_at are never modified. -/
theorem C10_setJobStatus_frame (st : Store) (jobId : String) (stat : JobStatus)
    (f : SetFields) :
    (∀ k, k ≠ jobId →
      (setJobStatus st jobId stat f).jobs.find? (fun r => decide (r.id = k)) =
        st.jobs.find? (fun r => decide (r.id = k))) ∧
    (∀ r ∈ st.jobs, r.id ≠ jobId → r ∈ (setJobStatus st jobId stat f).jobs) ∧
    (∀ r, st.jobs.find? (fun r0 => decide (r0.id = jobId)) = some r →
      (setJobStatus st jobId stat f).jobs.find? (fun r0 => decide (r0.id = jobId)) =
        some { r with
          status := stat,
          started_at := match f.started_at with
            | some s => if s ≠ "" then some s else r.started_at
            | none => r.started_at,
          finished_at := match f.finished_at with
            | some s => if s ≠ "" then some s else r.finished_at
            | none => r.finished_at,
          error := match f.error with
            | some e => some e
            | none => r.error,
          workdir := match f.workdir with
            | some s => if s ≠ "" then some s else r.workdir
            | none => r.workdir }) ∧
    (setJobStatus st jobId stat f).logs = st.logs ∧
    (setJobStatus st jobId stat f).findings = st.findings := by
  refine ⟨?_, ?_, ?_, rfl, rfl⟩
  · intro k hk
    show (st.jobs.map _).find? _ = _
    rw [find?_id_map _ (upd_id_preserve jobId stat f) k]
    cases hf : st.jobs.find? fun r => decide (r.id = k) with
    | none => rfl
    | some r =>
      have hp := List.find?_some hf
      have hrid : r.id = k := of_decide_eq_true hp
      simp only [Option.map_some']
      rw [if_neg (by rw [hrid]; exact hk)]
  · intro r hr hne
    have : (fun r0 => if r0.id = jobId then (colsFor stat f).foldl applyCol r0 else r0) r
        = r := by
      (try dsimp only)
      rw [if_neg hne]
    exact this ▸ List.mem_map_of_mem _ hr
  · intro r hfind
    show (st.jobs.map _).find? _ = _
    rw [find?_id_map _ (upd_id_preserve jobId stat f) jobId, hfind]
    have hp := List.find?_some hfind
    have hrid : r.id = jobId := of_decide_eq_true hp
    simp only [Option.map_some']
    rw [if_pos hrid, foldl_colsFor_fields]

/-- A two-row store whose first job has a stale error and an old start
timestamp. -/
def c10Store : Store :=
  { jobs :=
      [ { id := "a", status := JobStatus.running, repo_url := "u", ref := none,
          created_at := 1, started_at := some "s0", error := some "old" },
        { id := "b", status := JobStatus.queued, repo_url := "v", ref := none,
          created_at := 2 } ] }

/-- Claim C10 witness: updating job "a" to succeeded with an empty-string
`started_at` (skipped) and empty-string `error` (overwritten) leaves job "b"
untouched and rewrites exactly the expected columns of "a". -/
theorem C10_setJobStatus_frame_witness :
    (c10Store.jobs.find? (fun r => decide (r.id = "b")) =
      (setJobStatus c10Store "a" JobStatus.succeeded
        { started_at := some "", finished_at := some "t9", error := some "" }).jobs.find?
        (fun r => decide (r.id = "b"))) ∧
    (setJobStatus c10Store "a" JobStatus.succeeded
        { started_at := some "", finished_at := some "t9", error := some "" }).jobs.find?
        (fun r0 => decide (r0.id = "a")) =
      some { id := "a", status := JobStatus.succeeded, repo_url := "u", ref := none,
             created_at := 1, started_at := some "s0", finished_at := some "t9",
             workdir := none, error := some "" } := by
  have h := C10_setJobStatus_frame c10Store "a" JobStatus.succeeded
    { started_at := some "", finished_at := some "t9", error := some "" }
  refine ⟨(h.1 "b" (by decide)).symm, ?_⟩
  have h3 := h.2.2.1
    { id := "a", status := JobStatus.running, repo_url := "u", ref := none,
      created_at := 1, started_at := some "s0", error := some "old" } (by decide)
  exact h3.trans (by decide)

/-! Claim C9: the log polling cursor. -/

/-- api.ts logs endpoint:
`SELECT id, ts, level, line FROM job_logs WHERE job_id = ? AND id > ?
ORDER BY id ASC LIMIT 500`.  The logs table is kept in insertion order and the
AUTOINCREMENT id grows with each insertion, so table order is id order and the
ORDER BY is the identity on this representation; LIMIT caps the page at 500
rows. -/
def readLogsSince (st : Store) (jobId : String) (after : Nat) : List LogRow :=
  (st.logs.filter fun l => decide (l.job_id = jobId ∧ after < l.seq)).take 500

/-- A job with 502 log lines, seq 1..502. -/
def c9Store : Store :=
  { logs := (List.range 502).map fun n => ⟨n + 1, "j", "t", "info", "x"⟩,
    nextLogSeq := 503 }

/-- Claim C9, counterexample: with 502 log lines written for a job, reading
since the first line's cursor returns only 500 rows (the LIMIT 500 page), not
the 501 remaining lines the claim demands. -/
theorem C9_counterexample :
    (readLogsSince c9Store "j" 1).length = 500 ∧
    (c9Store.logs.drop 1).length = 501 ∧
    readLogsSince c9Store "j" 1 ≠ c9Store.logs.drop 1 := by
  refine ⟨by decide, by decide, fun hc => ?_⟩
  have h1 : (readLogsSince c9Store "j" 1).length = 500 := by decide
  have h2 : (c9Store.logs.drop 1).length = 501 := by decide
  rw [hc, h2] at h1
  exact absurd h1 (by decide)

theorem filter_gt_seq_eq_drop (L : List LogRow)
    (hs : L.Pairwise fun x y => x.seq < y.seq) :
    ∀ i (hi : i < L.length),
      L.filter (fun l => decide ((L.get ⟨i, hi⟩).seq < l.seq)) = L.drop (i + 1) := by
  induction L with
  | nil => intro i hi; exact absurd hi (Nat.not_lt_zero i)
  | cons x rest ih =>
    intro i hi
    rw [List.pairwise_cons] at hs
    cases i with
    | zero =>
      show (x :: rest).filter (fun l => decide (x.seq < l.seq)) = rest
      rw [List.filter_cons_of_neg (by simp)]
      exact List.filter_eq_self.mpr fun l hl => by
        simp only [decide_eq_true_eq]
        exact hs.1 l hl
    | succ i' =>
      have hi' : i' < rest.length := Nat.lt_of_succ_lt_succ hi
      show (x :: rest).filter
          (fun l => decide ((rest.get ⟨i', hi'⟩).seq < l.seq)) = rest.drop (i' + 1)
      have hx : x.seq < (rest.get ⟨i', hi'⟩).seq :=
        hs.1 _ (rest.get_mem _ _)
      rw [List.filter_cons_of_neg (by simp; exact Nat.le_of_lt hx)]
      exact ih hs.2 i' hi'

/-- Claim C9 (amended): for a job whose log lines L1..Lk carry strictly
increasing sequence ids, reading since cursor Li.seq returns the first
min(500, k−i) of the lines Li+1..Lk, in write order; every returned line
belongs to the job and has sequence id above the cursor; and whenever at most
500 lines remain — the regime the endpoint's repeated polling is designed
for — the result is exactly Li+1..Lk, as the claim states. -/
theorem C9_log_cursor (st : Store) (jobId : String) (L : List LogRow) (i : Nat)
    (hL : st.logs.filter (fun l => decide (l.job_id = jobId)) = L)
    (hsorted : st.logs.Pairwise fun x y => x.seq < y.seq)
    (hi : i < L.length) :
    readLogsSince st jobId (L.get ⟨i, hi⟩).seq = (L.drop (i + 1)).take 500 ∧
    (∀ l ∈ readLogsSince st jobId (L.get ⟨i, hi⟩).seq,
      l.job_id = jobId ∧ (L.get ⟨i, hi⟩).seq < l.seq) ∧
    (L.length - (i + 1) ≤ 500 →
      readLogsSince st jobId (L.get ⟨i, hi⟩).seq = L.drop (i + 1)) := by
  have hsplit : ∀ c : Nat, st.logs.filter (fun l => decide (l.job_id = jobId ∧ c < l.seq)) =
      L.filter (fun l => decide (c < l.seq)) := by
    intro c
    rw [← hL, List.filter_filter]
    congr 1
    funext l
    simp only [Bool.decide_and]
    exact Bool.and_comm _ _
  have hLs : L.Pairwise fun x y => x.seq < y.seq :=
    hsorted.sublist (hL ▸ List.filter_sublist st.logs)
  have hkey : st.logs.filter
      (fun l => decide (l.job_id = jobId ∧ (L.get ⟨i, hi⟩).seq < l.seq)) =
      L.drop (i + 1) := by
    rw [hsplit, filter_gt_seq_eq_drop L hLs i hi]
  refine ⟨?_, ?_, ?_⟩
  · unfold readLogsSince
    rw [hkey]
  · intro l hl
    unfold readLogsSince at hl
    have hmem := List.mem_of_mem_take hl
    have := List.of_mem_filter hmem
    exact of_decide_eq_true this
  · intro hlen
    unfold readLogsSince
    rw [hkey]
    exact List.take_of_length_le (by rw [List.length_drop]; exact hlen)

/-- A job with three log lines. -/
def c9SmallStore : Store :=
  { logs := [⟨1, "j", "t1", "info", "a"⟩, ⟨2, "j", "t2", "info", "b"⟩,
             ⟨3, "j", "t3", "info", "c"⟩],
    nextLogSeq := 4 }

/-- Claim C9 witness: the amended theorem applied to a three-line job, cursor
at the first line. -/
theorem C9_log_cursor_witness :
    readLogsSince c9SmallStore "j"
        ((c9SmallStore.logs.get ⟨0, by decide⟩).seq) =
      (c9SmallStore.logs.drop 1).take 500 ∧
    (∀ l ∈ readLogsSince c9SmallStore "j"
        ((c9SmallStore.logs.get ⟨0, by decide⟩).seq),
      l.job_id = "j" ∧ (c9SmallStore.logs.get ⟨0, by decide⟩).seq < l.seq) ∧
    (c9SmallStore.logs.length - (0 + 1) ≤ 500 →
      readLogsSince c9SmallStore "j"
          ((c9SmallStore.logs.get ⟨0, by decide⟩).seq) =
        c9SmallStore.logs.drop 1) :=
  C9_log_cursor c9SmallStore "j" c9SmallStore.logs 0 (by decide) (by decide) (by decide)

/-! git.ts `shellEscape` (claim C7). -/

/-- The replacement git.ts `shellEscape` applies to one character:
`s.replace(/'/g, "'\\''")` rewrites every single quote to the four-character
sequence quote, backslash, quote, quote and leaves everything else alone. -/
def escChar (c : Char) : List Char :=
  if c = '\'' then ['\'', '\\', '\'', '\''] else [c]

/-- The replaced body: `escChar` applied across the string. -/
def escAll : List Char → List Char
  | [] => []
  | c :: t => escChar c ++ escAll t

/-- git.ts `shellEscape`: the replaced body wrapped in single quotes. -/
def shellEscape (s : List Char) : List Char :=
  '\'' :: escAll s ++ ['\'']

/-- Shell metacharacters: outside quotes any of these would end the word,
start another command, or trigger an expansion. -/
def isShellMeta (c : Char) : Bool :=
  c = ' ' || c = '\t' || c = '\n' || c = ';' || c = '&' || c = '|' ||
  c = '<' || c = '>' || c = '(' || c = ')' || c = '$' || c = '"' ||
  c = '*' || c = '?' || c = '[' || c = ']' || c = '\x60' || c = '\x7b' ||
  c = '\x7d' || c = '#' || c = '~'

/-- A minimal POSIX shell word evaluator for stating injection safety:
`evalWord false cs` succeeds exactly when the whole input is one word
containing no unquoted metacharacter — so no embedded command separator,
substitution or expansion is live — and returns the string the shell expands
the word to. Inside single quotes (mode `true`) every character up to the
closing quote is literal; outside, a backslash escapes the next character and
a single quote opens a quoted span (POSIX.1 §2.2). -/
def evalWord : Bool → List Char → Option (List Char)
  | true, [] => none
  | true, c :: rest =>
    if c = '\'' then evalWord false rest
    else (evalWord true rest).map (c :: ·)
  | false, [] => some []
  | false, '\\' :: c :: rest => (evalWord false rest).map (c :: ·)
  | false, c :: rest =>
    if c = '\'' then evalWord true rest
    else if c = '\\' then none
    else if isShellMeta c then none
    else (evalWord false rest).map (c :: ·)

theorem evalWord_false_quote (rest : List Char) :
    evalWord false ('\'' :: rest) = evalWord true rest := by
  rw [evalWord, if_pos rfl]
  intro c1 r1 h hr
  exact absurd h (by decide)

theorem evalWord_escAll (s : List Char) :
    ∀ k, evalWord true (escAll s ++ '\'' :: k) =
      (evalWord false k).map (s ++ ·) := by
  induction s with
  | nil =>
    intro k
    show evalWord true ('\'' :: k) = _
    rw [evalWord, if_pos rfl]
    cases evalWord false k <;> rfl
  | cons c t ih =>
    intro k
    by_cases hc : c = '\''
    · subst hc
      show evalWord true
        ('\'' :: '\\' :: '\'' :: '\'' :: (escAll t ++ '\'' :: k)) = _
      rw [evalWord, if_pos rfl]
      rw [show evalWord false ('\\' :: '\'' :: '\'' :: (escAll t ++ '\'' :: k)) =
          (evalWord false ('\'' :: (escAll t ++ '\'' :: k))).map ('\'' :: ·) from rfl]
      rw [evalWord_false_quote]
      rw [ih k]
      cases evalWord false k <;> rfl
    · show evalWord true (escChar c ++ escAll t ++ '\'' :: k) = _
      rw [show escChar c = [c] from by rw [escChar, if_neg hc]]
      show evalWord true (c :: (escAll t ++ '\'' :: k)) = _
      rw [evalWord, if_neg hc, ih k]
      cases evalWord false k <;> rfl

/-- Claim C7 (confirmed): for every ref string, the word `shellEscape` builds
for the `git checkout` command line is a single, fully quoted shell word that
the shell evaluates back to exactly the original ref; since the evaluator
rejects any unquoted metacharacter, no crafted ref (quotes, spaces,
semicolons, backticks, dollar signs, …) can terminate the quoting or inject
an additional command into the `sh -lc` line built by `dockerGitClone`. -/
theorem C7_ref_injection_safety (s : List Char) :
    evalWord false (shellEscape s) = some s := by
  show evalWord false ('\'' :: (escAll s ++ ['\''])) = some s
  rw [evalWord_false_quote]
  have := evalWord_escAll s []
  rw [show escAll s ++ '\'' :: [] = escAll s ++ ['\''] from rfl] at this
  rw [this]
  show some (s ++ []) = some s
  rw [List.append_nil]

/-! docker.ts `runDocker` (claim C5). -/

/-- docker.ts `RunResult`. -/
structure RunResult where
  code : Int
  stdout : String
  stderr : String
  timedOut : Bool
deriving DecidableEq, Repr

/-- What the spawned process would do, abstracted over wall-clock time: when
it exits on its own, its exit code and fully buffered stdout/stderr, and the
exit code and output captured up to the kill if it is SIGKILLed first. -/
structure ProcBehavior where
  exitsAt : Nat
  code : Int
  stdout : String
  stderr : String
  killCode : Int
  stdoutAtKill : String
  stderrAtKill : String
deriving DecidableEq, Repr

/-- The two events `runDocker` awaits. -/
inductive DockerEv
  | timerFired
  | exited
deriving DecidableEq, Repr

/-- Event order of one execution: the timeout callback runs first exactly
when a timer was armed (`params.timeoutMs && params.timeoutMs > 0`) and the
process is still running when it expires; otherwise the exit settles first
and `clearTimeout` cancels the timer. -/
def dockerTimeline (timeoutMs : Nat) (p : ProcBehavior) : List DockerEv :=
  if 0 < timeoutMs ∧ timeoutMs < p.exitsAt then
    [DockerEv.timerFired, DockerEv.exited]
  else [DockerEv.exited]

/-- Execution state of one `runDocker` call: the mutable `timedOut` flag,
whether `proc.kill("SIGKILL")` ran, and the settled result. -/
structure DockerExec where
  timedOut : Bool
  killed : Bool
  result : Option RunResult
deriving DecidableEq, Repr

/-- One event, mirroring the code: the timer callback sets `timedOut := true`
and kills the process; the awaited exit collects the exit code and the
buffered stdout/stderr into the returned record, together with the flag. -/
def dockerStep (p : ProcBehavior) (s : DockerExec) : DockerEv → DockerExec
  | .timerFired => { s with timedOut := true, killed := true }
  | .exited =>
    if s.killed then
      { s with result := some ⟨p.killCode, p.stdoutAtKill, p.stderrAtKill, s.timedOut⟩ }
    else
      { s with result := some ⟨p.code, p.stdout, p.stderr, s.timedOut⟩ }

/-- docker.ts `runDocker` with real time abstracted into the event order. -/
def runDocker (timeoutMs : Nat) (p : ProcBehavior) : DockerExec :=
  (dockerTimeline timeoutMs p).foldl (dockerStep p) ⟨false, false, none⟩

/-- Claim C5 (confirmed): every `runDocker` call settles with a record
carrying the exit code, the captured stdout, the captured stderr and the
`timedOut` flag — a non-zero exit code or a timeout produces a normal return,
never a throw; the process is forcibly killed exactly when an armed timeout
expires before the process exits, and then the record has `timedOut = true`;
otherwise the record carries the process's own code and full output with
`timedOut = false`. -/
theorem C5_run_result_contract (t : Nat) (p : ProcBehavior) :
    (0 < t → t < p.exitsAt →
      (runDocker t p).result =
        some ⟨p.killCode, p.stdoutAtKill, p.stderrAtKill, true⟩ ∧
      (runDocker t p).killed = true) ∧
    (¬(0 < t ∧ t < p.exitsAt) →
      (runDocker t p).result = some ⟨p.code, p.stdout, p.stderr, false⟩ ∧
      (runDocker t p).killed = false) ∧
    (∃ r, (runDocker t p).result = some r ∧
      (r.timedOut = true ↔ 0 < t ∧ t < p.exitsAt) ∧
      ((runDocker t p).killed = true ↔ 0 < t ∧ t < p.exitsAt)) := by
  by_cases hc : 0 < t ∧ t < p.exitsAt
  · have hrun : runDocker t p =
        ⟨true, true, some ⟨p.killCode, p.stdoutAtKill, p.stderrAtKill, true⟩⟩ := by
      unfold runDocker dockerTimeline
      rw [if_pos hc]
      rfl
    refine ⟨fun _ _ => by rw [hrun]; exact ⟨rfl, rfl⟩,
      fun hn => absurd hc hn, ?_⟩
    exact ⟨_, by rw [hrun], by simp [hc], by rw [hrun]; simp [hc]⟩
  · have hrun : runDocker t p =
        ⟨false, false, some ⟨p.code, p.stdout, p.stderr, false⟩⟩ := by
      unfold runDocker dockerTimeline
      rw [if_neg hc]
      rfl
    refine ⟨fun h1 h2 => absurd ⟨h1, h2⟩ hc,
      fun _ => by rw [hrun]; exact ⟨rfl, rfl⟩, ?_⟩
    exact ⟨_, by rw [hrun], by simp [hc], by rw [hrun]; simp [hc]⟩

/-- A process that would run for 100 ms against a 5 ms timeout. -/
def c5Proc : ProcBehavior :=
  { exitsAt := 100, code := 0, stdout := "full", stderr := "",
    killCode := 137, stdoutAtKill := "partial", stderrAtKill := "" }

/-- Claim C5 witness: the contract applied to a process that outlives its
timeout — killed, `timedOut = true`, partial output captured. -/
theorem C5_run_result_contract_witness :
    (runDocker 5 c5Proc).result = some ⟨137, "partial", "", true⟩ ∧
    (runDocker 5 c5Proc).killed = true :=
  (C5_run_result_contract 5 c5Proc).1 (by decide) (by decide)

/-! api.ts request validation and the POST /scan handler (claim C8). -/

def isAsciiAlpha (c : Char) : Bool :=
  (97 ≤ c.toNat && c.toNat ≤ 122) || (65 ≤ c.toNat && c.toNat ≤ 90)

def isAsciiDigit (c : Char) : Bool := 48 ≤ c.toNat && c.toNat ≤ 57

def isSchemeChar (c : Char) : Bool :=
  isAsciiAlpha c || isAsciiDigit c || c = '+' || c = '-' || c = '.'

def toLowerAscii (c : Char) : Char :=
  if 65 ≤ c.toNat ∧ c.toNat ≤ 90 then Char.ofNat (c.toNat + 32) else c

/-- The suffix after the last occurrence of `c` (the whole list when `c` does
not occur), as `String.prototype` slicing after `lastIndexOf` would give. -/
def afterLast (c : Char) (l : List Char) : List Char :=
  (l.reverse.takeWhile fun d => !(d = c)).reverse

/-- A parsed URL: the pieces `validateRepoUrl` inspects, named as the WHATWG
`URL` properties api.ts reads. -/
structure UrlParts where
  protocol : List Char
  hostname : List Char
deriving DecidableEq, Repr

/-- The `new URL(repoUrl)` parse api.ts relies on, modelled for the URLs this
service handles: a scheme, then `://`, then an authority whose host is the
part after any userinfo and before any port, lowercased; a scheme without
`//` parses with an empty hostname (as for non-special schemes), and a
missing or empty host after `//` is a parse error. The model omits WHATWG's
special-scheme quirks for inputs like `http:host` without slashes. -/
def parseUrl (s : List Char) : Option UrlParts :=
  let scheme := s.takeWhile isSchemeChar
  let rest := s.drop scheme.length
  match scheme with
  | [] => none
  | c0 :: _ =>
    if isAsciiAlpha c0 then
      match rest with
      | ':' :: r2 =>
        match r2 with
        | '/' :: '/' :: r3 =>
          let auth := r3.takeWhile fun c => !(c = '/' || c = '?' || c = '#')
          let hostport := afterLast '@' auth
          let host := hostport.takeWhile fun c => !(c = ':')
          if host.isEmpty then none
          else some ⟨scheme.map toLowerAscii ++ [':'], host.map toLowerAscii⟩
        | _ => some ⟨scheme.map toLowerAscii ++ [':'], []⟩
      | _ => none
    else none

/-- The three rejection reasons of api.ts `validateRepoUrl`, plus success. -/
inductive ValidateResult
  | ok
  | invalidUrl
  | badProtocol
  | hostNotAllowed (host : List Char)
deriving DecidableEq, Repr

/-- api.ts `validateRepoUrl`: parse, require http/https, require the hostname
to be in the allow-list. -/
def validateRepoUrl (allowedHosts : List (List Char)) (repoUrl : List Char) :
    ValidateResult :=
  match parseUrl repoUrl with
  | none => ValidateResult.invalidUrl
  | some u =>
    if u.protocol ≠ "https:".data ∧ u.protocol ≠ "http:".data then
      ValidateResult.badProtocol
    else if u.hostname ∉ allowedHosts then ValidateResult.hostNotAllowed u.hostname
    else ValidateResult.ok

/-- api.ts `validateAuth`: an empty configured token disables auth; otherwise
the Authorization header must equal `Bearer <token>`. -/
def validateAuth (token : List Char) (auth : Option (List Char)) : Bool :=
  if token.isEmpty then true
  else decide (auth.getD [] = 'B' :: 'e' :: 'a' :: 'r' :: 'e' :: 'r' :: ' ' :: token)

/-- The POST /scan responses: 401, 400 with the validation reason, or 202
with the new job id and status "queued". -/
inductive ScanOutcome
  | unauthorized
  | badRequest (reason : ValidateResult)
  | accepted (jobId : String)
deriving DecidableEq, Repr

/-- api.ts POST /scan handler: check auth, coerce the parsed body
(`String(body?.repoUrl ?? "")`, optional ref), validate, and either reject
with 400 and no write, or INSERT the queued job (with its workdir) and log
the queue line, answering 202. -/
def handleScanPost (token : List Char) (allowedHosts : List (List Char))
    (st : Store) (auth : Option (List Char))
    (body : Option (List Char × Option (List Char)))
    (newId : String) (now : Nat) (wd : String) (ts : String) :
    ScanOutcome × Store :=
  if validateAuth token auth then
    let repoUrl := (body.map Prod.fst).getD []
    let ref := body.bind Prod.snd
    match validateRepoUrl allowedHosts repoUrl with
    | ValidateResult.ok =>
      let st1 := { st with jobs := st.jobs ++
        [{ id := newId, status := JobStatus.queued, repo_url := ⟨repoUrl⟩,
           ref := ref.map fun r => (⟨r⟩ : String), created_at := now,
           workdir := some wd }] }
      (ScanOutcome.accepted newId, logLine st1 newId "info" "Job queued" ts)
    | v => (ScanOutcome.badRequest v, st)
  else (ScanOutcome.unauthorized, st)

/-- Claim C8 (confirmed): with valid auth (or auth disabled by an empty
token), a POST /scan whose repoUrl does not parse, has a protocol other than
http/https, or has a hostname outside the allow-list is answered 400 with the
matching reason and creates no job — the store is untouched; a request that
passes validation inserts exactly one job row with status queued (plus its
queue log line) and is answered 202 with the job id. -/
theorem C8_submission_validation (token : List Char)
    (allowedHosts : List (List Char)) (st : Store) (auth : Option (List Char))
    (body : Option (List Char × Option (List Char)))
    (newId : String) (now : Nat) (wd : String) (ts : String)
    (hauth : validateAuth token auth = true) :
    (parseUrl ((body.map Prod.fst).getD []) = none →
      handleScanPost token allowedHosts st auth body newId now wd ts =
        (ScanOutcome.badRequest ValidateResult.invalidUrl, st)) ∧
    (∀ u, parseUrl ((body.map Prod.fst).getD []) = some u →
      u.protocol ≠ "https:".data → u.protocol ≠ "http:".data →
      handleScanPost token allowedHosts st auth body newId now wd ts =
        (ScanOutcome.badRequest ValidateResult.badProtocol, st)) ∧
    (∀ u, parseUrl ((body.map Prod.fst).getD []) = some u →
      (u.protocol = "https:".data ∨ u.protocol = "http:".data) →
      u.hostname ∉ allowedHosts →
      handleScanPost token allowedHosts st auth body newId now wd ts =
        (ScanOutcome.badRequest (ValidateResult.hostNotAllowed u.hostname), st)) ∧
    (validateRepoUrl allowedHosts ((body.map Prod.fst).getD []) = ValidateResult.ok →
      (handleScanPost token allowedHosts st auth body newId now wd ts).1 =
        ScanOutcome.accepted newId ∧
      (handleScanPost token allowedHosts st auth body newId now wd ts).2.jobs =
        st.jobs ++
          [{ id := newId, status := JobStatus.queued,
             repo_url := ⟨(body.map Prod.fst).getD []⟩,
             ref := (body.bind Prod.snd).map fun r => (⟨r⟩ : String),
             created_at := now, workdir := some wd }]) := by
  refine ⟨?_, ?_, ?_, ?_⟩
  · intro hp
    have hv : validateRepoUrl allowedHosts ((body.map Prod.fst).getD []) =
        ValidateResult.invalidUrl := by
      unfold validateRepoUrl
      rw [hp]
    simp only [handleScanPost, hauth, if_true, hv]
  · intro u hp hp1 hp2
    have hv : validateRepoUrl allowedHosts ((body.map Prod.fst).getD []) =
        ValidateResult.badProtocol := by
      unfold validateRepoUrl
      rw [hp]
      simp only [if_pos (And.intro hp1 hp2)]
    simp only [handleScanPost, hauth, if_true, hv]
  · intro u hp hprot hhost
    have hv : validateRepoUrl allowedHosts ((body.map Prod.fst).getD []) =
        ValidateResult.hostNotAllowed u.hostname := by
      unfold validateRepoUrl
      rw [hp]
      have hnot : ¬(u.protocol ≠ "https:".data ∧ u.protocol ≠ "http:".data) := by
        rcases hprot with h | h
        · exact fun hc => hc.1 h
        · exact fun hc => hc.2 h
      show (if u.protocol ≠ "https:".data ∧ u.protocol ≠ "http:".data then
          ValidateResult.badProtocol
        else if u.hostname ∉ allowedHosts then ValidateResult.hostNotAllowed u.hostname
        else ValidateResult.ok) = ValidateResult.hostNotAllowed u.hostname
      rw [if_neg hnot, if_pos hhost]
    simp only [handleScanPost, hauth, if_true, hv]
  · intro hv
    constructor
    · simp only [handleScanPost, hauth, if_true, hv]
    · simp only [handleScanPost, hauth, if_true, hv, logLine]

/-- Claim C8 witness: with allow-list {github.com} and auth disabled, the
handler rejects `https://evil.example/repo.git` with 400 and an untouched
store, and accepts `https://github.com/o/r.git` with 202 and a queued row. -/
theorem C8_submission_validation_witness :
    handleScanPost [] ["github.com".data] {} none
        (some ("https://evil.example/repo.git".data, none)) "id1" 9 "w" "ts" =
      (ScanOutcome.badRequest (ValidateResult.hostNotAllowed "evil.example".data),
       {}) ∧
    (handleScanPost [] ["github.com".data] {} none
        (some ("https://github.com/o/r.git".data, none)) "id1" 9 "w" "ts").1 =
      ScanOutcome.accepted "id1" ∧
    (handleScanPost [] ["github.com".data] {} none
        (some ("https://github.com/o/r.git".data, none)) "id1" 9 "w" "ts").2.jobs =
      ({} : Store).jobs ++
        [{ id := "id1", status := JobStatus.queued,
           repo_url := ⟨"https://github.com/o/r.git".data⟩, ref := none,
           created_at := 9, workdir := some "w" }] := by
  refine ⟨?_, ?_⟩
  · exact (C8_submission_validation [] ["github.com".data] {} none
      (some ("https://evil.example/repo.git".data, none)) "id1" 9 "w" "ts"
      (by decide)).2.2.1
      ⟨"https:".data, "evil.example".data⟩ (by decide) (Or.inl rfl) (by decide)
  · have h := (C8_submission_validation [] ["github.com".data] {} none
      (some ("https://github.com/o/r.git".data, none)) "id1" 9 "w" "ts"
      (by decide)).2.2.2 (by decide)
    exact ⟨h.1, h.2⟩

/-! scanners.ts `safeJsonParse` (claim C4).

`JSON.parse` is modelled by a recursive-descent parser over character lists:
values are null, booleans, integers (fractions and exponents are not needed
by any statement below), strings with the standard escapes, arrays and
objects, with whitespace allowed between tokens and the whole input required
to be a single value. A fuel argument bounds recursion depth; `jsonParse`
supplies more fuel than any input of its length can consume. -/

/-- JSON values. -/
inductive JVal
  | null
  | bool (b : Bool)
  | num (n : Int)
  | str (s : List Char)
  | arr (xs : List JVal)
  | obj (fields : List (List Char × JVal))
deriving Repr

def isJsonWs (c : Char) : Bool :=
  c = ' ' || c = '\t' || c = '\n' || c = '\r'

def skipWs (s : List Char) : List Char := s.dropWhile isJsonWs

/-- JSON string escapes. -/
def escMap (c : Char) : Option Char :=
  if c = '"' || c = '/' then some c
  else if c = '\\' then some '\\'
  else if c = 'n' then some '\n'
  else if c = 't' then some '\t'
  else if c = 'r' then some '\r'
  else if c = 'b' then some (Char.ofNat 8)
  else if c = 'f' then some (Char.ofNat 12)
  else none

/-- Parse the remainder of a JSON string literal (after the opening quote). -/
def parseStr : List Char → Option (List Char × List Char)
  | [] => none
  | '"' :: r => some ([], r)
  | '\\' :: c :: r =>
    (parseStr r).bind fun p =>
      (escMap c).map fun ec => (ec :: p.1, p.2)
  | c :: r =>
    if c.toNat < 32 then none
    else (parseStr r).map fun p => (c :: p.1, p.2)

/-- Parse a run of digits as a natural number. -/
def parseNum (s : List Char) : Option (Int × List Char) :=
  let digits := s.takeWhile isAsciiDigit
  if digits.isEmpty then none
  else
    some (((digits.foldl (fun a d => 10 * a + (d.toNat - 48)) 0 : Nat) : Int),
      s.drop digits.length)

/-- Consume an expected literal tail. -/
def matchLit : List Char → List Char → Option (List Char)
  | [], s => some s
  | c :: t, d :: s => if d = c then matchLit t s else none
  | _ :: _, [] => none

mutual

def parseVal : Nat → List Char → Option (JVal × List Char)
  | 0, _ => none
  | fuel + 1, s =>
    match skipWs s with
    | [] => none
    | c :: r =>
      if c = 'n' then (matchLit "ull".data r).map fun r2 => (JVal.null, r2)
      else if c = 't' then (matchLit "rue".data r).map fun r2 => (JVal.bool true, r2)
      else if c = 'f' then (matchLit "alse".data r).map fun r2 => (JVal.bool false, r2)
      else if c = '"' then (parseStr r).map fun p => (JVal.str p.1, p.2)
      else if c = '[' then
        match skipWs r with
        | ']' :: r2 => some (JVal.arr [], r2)
        | _ => (parseElems fuel r).map fun p => (JVal.arr p.1, p.2)
      else if c = '\x7b' then
        match skipWs r with
        | '\x7d' :: r2 => some (JVal.obj [], r2)
        | _ => (parseMembers fuel r).map fun p => (JVal.obj p.1, p.2)
      else if c = '-' then (parseNum r).map fun p => (JVal.num (-p.1), p.2)
      else if isAsciiDigit c then (parseNum (c :: r)).map fun p => (JVal.num p.1, p.2)
      else none

def parseElems : Nat → List Char → Option (List JVal × List Char)
  | 0, _ => none
  | fuel + 1, s =>
    (parseVal fuel s).bind fun p =>
      match skipWs p.2 with
      | ',' :: r2 => (parseElems fuel r2).map fun q => (p.1 :: q.1, q.2)
      | ']' :: r2 => some ([p.1], r2)
      | _ => none

def parseMembers : Nat → List Char → Option (List (List Char × JVal) × List Char)
  | 0, _ => none
  | fuel + 1, s =>
    match skipWs s with
    | '"' :: r =>
      (parseStr r).bind fun kp =>
        match skipWs kp.2 with
        | ':' :: r3 =>
          (parseVal fuel r3).bind fun vp =>
            match skipWs vp.2 with
            | ',' :: r5 => (parseMembers fuel r5).map fun q => ((kp.1, vp.1) :: q.1, q.2)
            | '\x7d' :: r5 => some ([(kp.1, vp.1)], r5)
            | _ => none
        | _ => none
    | _ => none

end

/-- The model of `JSON.parse(s)`: one value, whitespace around it, nothing
else. -/
def jsonParse (s : List Char) : Option JVal :=
  match parseVal (s.length + 1) s with
  | some p => if skipWs p.2 = [] then some p.1 else none
  | none => none

/-- JS `String.prototype.indexOf` for one character, as an option. -/
def firstIdxOf (c : Char) : List Char → Option Nat
  | [] => none
  | d :: t => if d = c then some 0 else (firstIdxOf c t).map (· + 1)

/-- JS `String.prototype.lastIndexOf` for one character, as an option. -/
def lastIdxOf (c : Char) : List Char → Option Nat
  | [] => none
  | d :: t =>
    match lastIdxOf c t with
    | some k => some (k + 1)
    | none => if d = c then some 0 else none

/-- scanners.ts `safeJsonParse`: try `JSON.parse`; on failure take the
substring from the first `\x7b` to the last `\x7d` (`s.indexOf("{")`,
`s.lastIndexOf("}")`, `s.slice(i, j + 1)`) and parse that; fail when there is
no such substring (`i >= 0 && j > i`) or the slice does not parse. -/
def safeJsonParse (s : List Char) : Option JVal :=
  match jsonParse s with
  | some v => some v
  | none =>
    match firstIdxOf '\x7b' s, lastIdxOf '\x7d' s with
    | some i, some j =>
      if i < j then jsonParse ((s.drop i).take (j + 1 - i)) else none
    | _, _ => none

/-- One list occurs contiguously inside another. -/
def SubSeg (t s : List Char) : Prop := ∃ pre post, s = pre ++ t ++ post

/-- Claim C4, counterexample: `a[1]b` contains the well-formed JSON substring
`[1]`, yet `safeJsonParse` fails on it — the fallback looks only for curly
braces and never extracts a balanced bracketed substring such as an array. -/
theorem C4_counterexample :
    safeJsonParse "a[1]b".data = none ∧
    jsonParse "[1]".data = some (JVal.arr [JVal.num 1]) ∧
    "a[1]b".data = "a".data ++ "[1]".data ++ "b".data :=
  ⟨rfl, rfl, rfl⟩

theorem firstIdxOf_append {c : Char} :
    ∀ (pre rest : List Char), c ∉ pre → rest.head? = some c →
      firstIdxOf c (pre ++ rest) = some pre.length := by
  intro pre
  induction pre with
  | nil =>
    intro rest _ hh
    cases rest with
    | nil => exact Option.noConfusion hh
    | cons d t =>
      obtain rfl := Option.some.inj hh
      show firstIdxOf d (d :: t) = some 0
      rw [firstIdxOf, if_pos rfl]
  | cons x xs ih =>
    intro rest hc hh
    have hx : ¬x = c := fun he => hc (he ▸ List.mem_cons_self x xs)
    show firstIdxOf c (x :: (xs ++ rest)) = some (xs.length + 1)
    rw [firstIdxOf, if_neg hx,
      ih rest (fun hm => hc (List.mem_cons_of_mem _ hm)) hh]
    rfl

theorem lastIdxOf_of_not_mem {c : Char} :
    ∀ {l : List Char}, c ∉ l → lastIdxOf c l = none := by
  intro l
  induction l with
  | nil => intro; rfl
  | cons d t ih =>
    intro hc
    have hd : ¬d = c := fun he => hc (he ▸ List.mem_cons_self d t)
    show lastIdxOf c (d :: t) = none
    rw [lastIdxOf, ih fun hm => hc (List.mem_cons_of_mem _ hm)]
    simp [hd]

theorem lastIdxOf_append {c : Char} :
    ∀ (l post : List Char), c ∉ post →
      lastIdxOf c (l ++ c :: post) = some l.length := by
  intro l
  induction l with
  | nil =>
    intro post hp
    show lastIdxOf c (c :: post) = some 0
    rw [lastIdxOf, lastIdxOf_of_not_mem hp, if_pos rfl]
  | cons d t ih =>
    intro post hp
    show lastIdxOf c (d :: (t ++ c :: post)) = some (t.length + 1)
    rw [lastIdxOf, ih post hp]

/-- Claim C4 (amended): `safeJsonParse` returns any directly parseable input;
when direct parsing fails it parses exactly the first-`\x7b`-to-last-`\x7d`
slice — so an embedded JSON object is recovered whenever the leading banner
contains no opening brace and the trailing banner no closing brace — and it
fails whenever that slice (not some other well-formed substring) is
unparseable or absent; a string with no well-formed JSON substring at all
always fails. -/
theorem C4_tolerant_parsing :
    (∀ s v, jsonParse s = some v → safeJsonParse s = some v) ∧
    (∀ pre mid post v, '\x7b' ∉ pre → '\x7d' ∉ post →
      jsonParse ('\x7b' :: mid ++ ['\x7d']) = some v →
      jsonParse (pre ++ ('\x7b' :: mid ++ ['\x7d']) ++ post) = none →
      safeJsonParse (pre ++ ('\x7b' :: mid ++ ['\x7d']) ++ post) = some v) ∧
    (∀ s, (∀ t, SubSeg t s → jsonParse t = none) → safeJsonParse s = none) := by
  refine ⟨?_, ?_, ?_⟩
  · intro s v h
    unfold safeJsonParse
    rw [h]
  · intro pre mid post v hpre hpost hbody hwhole
    unfold safeJsonParse
    rw [hwhole]
    have hfirst : firstIdxOf '\x7b' (pre ++ ('\x7b' :: mid ++ ['\x7d']) ++ post) =
        some pre.length := by
      rw [List.append_assoc]
      exact firstIdxOf_append pre _ hpre rfl
    have hlast : lastIdxOf '\x7d' (pre ++ ('\x7b' :: mid ++ ['\x7d']) ++ post) =
        some (pre.length + mid.length + 1) := by
      have hshape : pre ++ ('\x7b' :: mid ++ ['\x7d']) ++ post =
          (pre ++ '\x7b' :: mid) ++ '\x7d' :: post := by
        simp
      rw [hshape, lastIdxOf_append (pre ++ '\x7b' :: mid) post hpost]
      simp [Nat.add_comm, Nat.add_assoc, Nat.add_left_comm]
    rw [hfirst, hlast]
    have hlt : pre.length < pre.length + mid.length + 1 := by omega
    show (if pre.length < pre.length + mid.length + 1 then
        jsonParse (((pre ++ ('\x7b' :: mid ++ ['\x7d']) ++ post).drop pre.length).take
          (pre.length + mid.length + 1 + 1 - pre.length))
      else none) = some v
    rw [if_pos hlt]
    have hdrop : ((pre ++ ('\x7b' :: mid ++ ['\x7d']) ++ post).drop pre.length) =
        '\x7b' :: mid ++ ['\x7d'] ++ post := by
      rw [List.append_assoc, List.drop_left]
    rw [hdrop]
    have harith : pre.length + mid.length + 1 + 1 - pre.length = mid.length + 2 := by
      omega
    rw [harith]
    have htake : ('\x7b' :: mid ++ ['\x7d'] ++ post).take (mid.length + 2) =
        '\x7b' :: mid ++ ['\x7d'] := by
      have h1 : '\x7b' :: mid ++ ['\x7d'] ++ post =
          ('\x7b' :: mid ++ ['\x7d']) ++ post := by simp
      have h2 : ('\x7b' :: mid ++ ['\x7d']).length = mid.length + 2 := by
        simp
      rw [h1, ← h2, List.take_left]
    rw [htake]
    exact hbody
  · intro s hall
    unfold safeJsonParse
    rw [hall s ⟨[], [], by simp⟩]
    cases hf : firstIdxOf '\x7b' s with
    | none => rfl
    | some i =>
      cases hl : lastIdxOf '\x7d' s with
      | none => rfl
      | some j =>
        show (if i < j then jsonParse ((s.drop i).take (j + 1 - i)) else none) = none
        by_cases hij : i < j
        · rw [if_pos hij]
          refine hall _ ⟨s.take i, (s.drop i).drop (j + 1 - i), ?_⟩
          rw [List.append_assoc, List.take_append_drop, List.take_append_drop]
        · rw [if_neg hij]

/-- Claim C4 witness: the amended theorem applied to a JSON object wrapped in
banner text free of curly braces, which the fallback recovers. -/
theorem C4_tolerant_parsing_witness :
    safeJsonParse ("x ".data ++ ('\x7b' :: "\"a\":1".data ++ ['\x7d']) ++ " y".data) =
      some (JVal.obj [("a".data, JVal.num 1)]) :=
  C4_tolerant_parsing.2.1 "x ".data "\"a\":1".data " y".data
    (JVal.obj [("a".data, JVal.num 1)]) (by decide) (by decide) rfl rfl

end RepoSentinel
